import Mathlib

/-!
# gulpfile.js : code generation driver

A shallow embedding of `gulpfile.js` : the `mappings` registry, the `codegen` gulp task,
`handleInput`, `codegen` and `deleteFolderRecursive`, together with the parts of the Node.js
runtime they call (`fs`, `path`, string methods, property lookup on a plain object).

Conventions.
* The file system is an explicit tree (`Node`) that stands for the working directory of the
  process; a path string is resolved by splitting it at `/`.
* Functions that can throw return `Except JsError _`.
* `console.log`, `console.error`, `spawn` and the calls of `deleteFolderRecursive` made by
  `codegen` are recorded as events of a trace; a spawned generator runs outside the model.
* Paths are POSIX paths and strings are lists of characters.
-/

namespace Gulpfile

/-! ## Strings -/

/-- Substring test on character lists: does `needle` occur in the list as a contiguous block. -/
def isInfixB (needle : List Char) : List Char → Bool
  | [] => needle.isEmpty
  | c :: cs => needle.isPrefixOf (c :: cs) || isInfixB needle cs

/-- The string `hay` contains `needle` as a contiguous substring
(`hay.indexOf(needle) > -1` in JavaScript). -/
def containsStr (hay needle : String) : Prop := needle.data <:+: hay.data

instance (hay needle : String) : Decidable (containsStr hay needle) := by
  unfold containsStr
  infer_instance

/-- Split a character list at every occurrence of `sep`; the result is never empty (the split
of the empty list is one empty segment, as for `"".split(",")`). -/
def splitOnChar (sep : Char) : List Char → List (List Char)
  | [] => [[]]
  | c :: cs =>
    if c = sep then [] :: splitOnChar sep cs
    else
      match splitOnChar sep cs with
      | seg :: segs => (c :: seg) :: segs
      | [] => [[c]]

/-! ## File system state -/

/-- A file system object: a regular file with its contents, or a directory with its entries. -/
inductive Node where
  | file (content : String)
  | dir (entries : List (String × Node))

/-- Errors a call can raise. `fuelExhausted` belongs to the model only: it is returned when the
recursion budget of `deleteFolderRecursiveAux` is used up. -/
inductive JsError where
  | ENOENT
  | ENOTDIR
  | EISDIR
  | TypeError
  | fuelExhausted
  deriving DecidableEq, Repr

/-- The components of a path: the segments between `/`, without the empty ones and without `.`
(what the operating system does when it resolves a path from the working directory). A segment
`..` is not interpreted: the model covers the paths that stay below the working directory, as
the ones `codegen` builds from the registry do. -/
def components (path : String) : List String :=
  ((splitOnChar '/' path.data).filter (fun seg => decide (seg ≠ [] ∧ seg ≠ ['.']))).map String.mk

/-- The relative path string with the given components. -/
def relativePath : List String → String
  | [] => ""
  | name :: rest => name ++ "/" ++ relativePath rest

/-- The first entry of a directory listing with the given name. -/
def lookupEntry (c : String) : List (String × Node) → Option Node
  | [] => none
  | e :: es => if e.1 = c then some e.2 else lookupEntry c es

/-- Apply `f` to the first entry of a directory listing with the given name. -/
def updateEntry (c : String) (f : Node → Node) : List (String × Node) → List (String × Node)
  | [] => []
  | e :: es => if e.1 = c then (e.1, f e.2) :: es else e :: updateEntry c f es

/-- Resolve a list of components from a node. -/
def Node.lookup? : Node → List String → Option Node
  | n, [] => some n
  | .file _, _ :: _ => none
  | .dir es, c :: rest =>
    match lookupEntry c es with
    | some child => child.lookup? rest
    | none => none

/-- Put `new` in place of the object at the given components (no change when they do not
resolve). -/
def Node.replaceAt : List String → Node → Node → Node
  | [], _, new => new
  | _ :: _, .file x, _ => .file x
  | c :: rest, .dir es, new => .dir (updateEntry c (fun x => Node.replaceAt rest x new) es)

/-- Remove the regular file at the given components. -/
def Node.unlink : List String → Node → Except JsError Node
  | [], _ => .error .EISDIR
  | _ :: _, .file _ => .error .ENOTDIR
  | [c], .dir es =>
    match lookupEntry c es with
    | some (.file _) => .ok (.dir (es.filter (fun e => decide (e.1 ≠ c))))
    | some (.dir _) => .error .EISDIR
    | none => .error .ENOENT
  | c :: c' :: rest, .dir es =>
    match lookupEntry c es with
    | some child =>
      match Node.unlink (c' :: rest) child with
      | .ok child' => .ok (.dir (updateEntry c (fun _ => child') es))
      | .error err => .error err
    | none => .error .ENOENT

mutual
/-- Number of directory levels of a node (a file has none). -/
def Node.height : Node → Nat
  | .file _ => 0
  | .dir es => heightEntries es + 1
/-- Largest height among the entries of a directory. -/
def heightEntries : List (String × Node) → Nat
  | [] => 0
  | (_, n) :: rest => max n.height (heightEntries rest)
end

/-- A name a directory entry can have. -/
def validName (name : String) : Bool :=
  decide (name.data ≠ [] ∧ name.data ≠ ['.'] ∧ name.data ≠ ['.', '.'] ∧ '/' ∉ name.data)

mutual
/-- Well-formed tree: entry names are valid and no directory lists a name twice. -/
def Node.wf : Node → Bool
  | .file _ => true
  | .dir es => wfEntries es
/-- Well-formed list of directory entries. -/
def wfEntries : List (String × Node) → Bool
  | [] => true
  | (name, n) :: rest =>
    validName name && !(rest.any (fun e => decide (e.1 = name))) && n.wf && wfEntries rest
end

/-- Model of `fs.existsSync`. -/
def existsSync (fs : Node) (path : String) : Bool :=
  (fs.lookup? (components path)).isSome

/-- Model of `fs.readdirSync`: the names of the entries of a directory. -/
def readdirSync (fs : Node) (path : String) : Except JsError (List String) :=
  match fs.lookup? (components path) with
  | some (.dir es) => .ok (es.map Prod.fst)
  | some (.file _) => .error .ENOTDIR
  | none => .error .ENOENT

/-- Model of `fs.lstatSync(path).isDirectory()`. -/
def lstatSyncIsDirectory (fs : Node) (path : String) : Except JsError Bool :=
  match fs.lookup? (components path) with
  | some (.dir _) => .ok true
  | some (.file _) => .ok false
  | none => .error .ENOENT

/-- Model of `fs.readFileSync(path).toString('utf8')`. -/
def readFileSync (fs : Node) (path : String) : Except JsError String :=
  match fs.lookup? (components path) with
  | some (.file content) => .ok content
  | some (.dir _) => .error .EISDIR
  | none => .error .ENOENT

/-- Model of `fs.unlinkSync`. -/
def unlinkSync (fs : Node) (path : String) : Except JsError Node :=
  Node.unlink (components path) fs

/-! ## deleteFolderRecursive -/

/-- The local `header` of `deleteFolderRecursive`. -/
def header : String := "Code generated by Microsoft (R) AutoRest Code Generator"

/-- The test `content.indexOf(header) > -1`. -/
def hasMarker (content : String) : Bool := isInfixB header.data content.data

/-- The function `deleteFolderRecursive(path)`, with the file system passed explicitly and a
recursion budget: one unit per directory level. -/
def deleteFolderRecursiveAux : Nat → Node → String → Except JsError Node
  | 0, _, _ => .error .fuelExhausted
  | fuel + 1, fs, path =>
    if existsSync fs path then
      match readdirSync fs path with
      | .error err => .error err
      | .ok files =>
        files.foldlM (fun fs file =>
          let curPath := path ++ "/" ++ file
          match lstatSyncIsDirectory fs curPath with
          | .error err => .error err
          | .ok true => deleteFolderRecursiveAux fuel fs curPath
          | .ok false =>
            match readFileSync fs curPath with
            | .error err => .error err
            | .ok content =>
              if hasMarker content then unlinkSync fs curPath else .ok fs) fs
    else .ok fs

/-- The callback of the `forEach` in `deleteFolderRecursive` (the same text as in
`deleteFolderRecursiveAux`, named for the proofs). -/
def visitEntry (fuel : Nat) (path : String) (fs : Node) (file : String) : Except JsError Node :=
  let curPath := path ++ "/" ++ file
  match lstatSyncIsDirectory fs curPath with
  | .error err => .error err
  | .ok true => deleteFolderRecursiveAux fuel fs curPath
  | .ok false =>
    match readFileSync fs curPath with
    | .error err => .error err
    | .ok content =>
      if hasMarker content then unlinkSync fs curPath else .ok fs

mutual
/-- Closed form of what the traversal leaves of a node: the files that carry the marker are
gone, every directory is kept. Used to state the result of `deleteFolderRecursive`. -/
def cleanNode : Node → Node
  | .file content => .file content
  | .dir es => .dir (cleanEntries es)
/-- Closed form of what the traversal leaves of a directory listing. -/
def cleanEntries : List (String × Node) → List (String × Node)
  | [] => []
  | (name, n) :: rest =>
    match n with
    | .file content =>
      if hasMarker content then cleanEntries rest else (name, .file content) :: cleanEntries rest
    | .dir _ => (name, cleanNode n) :: cleanEntries rest
end

/-- The function `deleteFolderRecursive(path)` run on the file system `fs`; the budget is the
height of the tree plus one, which is not used up on an existing well-formed directory
(`deleteFolderRecursive_eq`; any larger budget gives the same result,
`deleteFolderRecursiveAux_eq`). -/
def deleteFolderRecursive (fs : Node) (path : String) : Except JsError Node :=
  deleteFolderRecursiveAux (fs.height + 1) fs path


/-! ## Node.js `path` (POSIX) and string helpers -/

/-- Join segments with `/` between them. -/
def joinSegments : List (List Char) → List Char
  | [] => []
  | [seg] => seg
  | seg :: rest => seg ++ '/' :: joinSegments rest

/-- Model of `normalizeString` of Node.js `path` on the segments of a path; `acc` is the stack
of segments kept so far, the last one first. Empty segments and `.` are dropped, `..` removes
the segment before it, or is kept when there is none and `allowAboveRoot` holds. -/
def normalizeSegments (allowAboveRoot : Bool) :
    List (List Char) → List (List Char) → List (List Char)
  | acc, [] => acc.reverse
  | acc, seg :: rest =>
    if seg = [] ∨ seg = ['.'] then normalizeSegments allowAboveRoot acc rest
    else if seg = ['.', '.'] then
      match acc with
      | top :: below =>
        if top = ['.', '.'] then
          if allowAboveRoot then normalizeSegments allowAboveRoot (seg :: acc) rest
          else normalizeSegments allowAboveRoot acc rest
        else normalizeSegments allowAboveRoot below rest
      | [] =>
        if allowAboveRoot then normalizeSegments allowAboveRoot [seg] rest
        else normalizeSegments allowAboveRoot [] rest
    else normalizeSegments allowAboveRoot (seg :: acc) rest

/-- Model of `normalizeString(path, allowAboveRoot)` of Node.js `path`. -/
def normalizeString (path : List Char) (allowAboveRoot : Bool) : List Char :=
  joinSegments (normalizeSegments allowAboveRoot [] (splitOnChar '/' path))

/-- Model of `path.normalize` (POSIX). -/
def pathNormalize (path : String) : String :=
  if path.data = [] then "."
  else
    let isAbsolute := decide (path.data.head? = some '/')
    let trailingSeparator := decide (path.data.getLast? = some '/')
    let body := normalizeString path.data (!isAbsolute)
    let body := if body = [] ∧ isAbsolute = false then ['.'] else body
    let body := if body ≠ [] ∧ trailingSeparator = true then body ++ ['/'] else body
    if isAbsolute then String.mk ('/' :: body) else String.mk body

/-- Model of `path.join` (POSIX): the non-empty arguments joined with `/`, then normalised. -/
def pathJoin (parts : List String) : String :=
  let kept := (parts.filter (fun part => decide (part ≠ ""))).map String.data
  if kept = [] then "." else pathNormalize (String.mk (joinSegments kept))

/-- The loop of `path.resolve`: the arguments are taken from the last one to the first one, then
the working directory, until an absolute path is reached. -/
def resolveLoop : List String → List Char → List Char × Bool
  | [], resolved => (resolved, false)
  | part :: before, resolved =>
    if part.data = [] then resolveLoop before resolved
    else if part.data.head? = some '/' then (part.data ++ '/' :: resolved, true)
    else resolveLoop before (part.data ++ '/' :: resolved)

/-- Model of `path.resolve` (POSIX) in a process whose working directory is `cwd`. -/
def pathResolve (cwd : String) (parts : List String) : String :=
  let r := resolveLoop (parts.reverse ++ [cwd]) []
  let body := normalizeString r.1 (!r.2)
  if r.2 then String.mk ('/' :: body)
  else if body ≠ [] then String.mk body else "."

/-- The call `s.replace(/\./g, '/')`. -/
def replaceDots (s : String) : String :=
  String.mk (s.data.map (fun c => if c = '.' then '/' else c))

/-- The call `s.replace(/\ /g, '')`. -/
def removeSpaces (s : String) : String :=
  String.mk (s.data.filter (fun c => decide (c ≠ ' ')))

/-- The call `s.split(",")`. -/
def splitComma (s : String) : List String :=
  (splitOnChar ',' s.data).map String.mk

/-- The regular expression piece `[0-9]+` at the head of the input: the rest after the longest
run of digits, when there is at least one digit. After such a piece the expression goes on
with `\.` or ends, so that only the longest run can lead to a match. -/
def digitsThen : List Char → Option (List Char)
  | [] => none
  | c :: rest => if c.isDigit then some (rest.dropWhile Char.isDigit) else none

/-- The regular expression `[0-9]+\.[0-9]+\.[0-9]+.*` matched at the head of the input. -/
def matchVersionAt (cs : List Char) : Bool :=
  match digitsThen cs with
  | some ('.' :: r1) =>
    match digitsThen r1 with
    | some ('.' :: r2) => (digitsThen r2).isSome
    | _ => false
  | _ => false

/-- The test `s.match(/[0-9]+\.[0-9]+\.[0-9]+.*/)`: the expression is not anchored, a match may
start at any position of the string. -/
def matchVersionChars : List Char → Bool
  | [] => false
  | c :: cs => matchVersionAt (c :: cs) || matchVersionChars cs

/-- The test `autoRestVersion.match(/[0-9]+\.[0-9]+\.[0-9]+.*/)`. -/
def matchVersion (s : String) : Bool := matchVersionChars s.data

/-! ## The registry -/

/-- An entry of `mappings`; the fields `args`, `modeler` and `fluent` may be absent. -/
structure Project where
  dir : String
  source : String
  package : String
  args : Option String
  modeler : Option String
  fluent : Option Bool
  deriving DecidableEq

/-- The object `mappings`, its keys in the order of the source. -/
def mappings : List (String × Project) := [
  ("compute",
    Project.mk "azure-mgmt-compute"
      "specification/compute/resource-manager/readme.md"
      "com.microsoft.azure.management.compute"
      (some "--payload-flattening-threshold=1 --tag=package-2017-03") (some "CompositeSwagger") none),
  ("eventhub",
    Project.mk "azure-mgmt-eventhub"
      "specification/eventhub/resource-manager/readme.md"
      "com.microsoft.azure.management.eventhub"
      (some "--payload-flattening-threshold=1 --tag=package-2017-04") none none),
  ("servicefabric",
    Project.mk "azure-mgmt-servicefabric"
      "specification/servicefabric/resource-manager/readme.md"
      "com.microsoft.azure.management.servicefabric"
      (some "--payload-flattening-threshold=1 --tag=package-2016-09") none none),
  ("notificationhubs",
    Project.mk "azure-mgmt-notificationhubs"
      "specification/notificationhubs/resource-manager/readme.md"
      "com.microsoft.azure.management.notificationhubs"
      (some "--payload-flattening-threshold=1 --tag=package-2017-04") none none),
  ("analysisservices",
    Project.mk "azure-mgmt-analysisservices"
      "specification/analysisservices/resource-manager/readme.md"
      "com.microsoft.azure.management.analysisservices"
      (some "--payload-flattening-threshold=1 --tag=package-2016-05") none none),
  ("automation",
    Project.mk "azure-mgmt-automation"
      "specification/automation/resource-manager/readme.md"
      "com.microsoft.azure.management.automation"
      (some "--payload-flattening-threshold=1 --tag=package-2015-10") none none),
  ("billing",
    Project.mk "azure-mgmt-billing"
      "specification/billing/resource-manager/readme.md"
      "com.microsoft.azure.management.billing"
      (some "--payload-flattening-threshold=1 --tag=package-2017-04-preview") none none),
  ("cognitiveservices",
    Project.mk "azure-mgmt-cognitiveservices"
      "specification/cognitiveservices/resource-manager/readme.md"
      "com.microsoft.azure.management.cognitiveservices"
      (some "--payload-flattening-threshold=1 --tag=package-2017-04") none none),
  ("consumption",
    Project.mk "azure-mgmt-consumption"
      "specification/consumption/resource-manager/readme.md"
      "com.microsoft.azure.management.consumption"
      (some "--payload-flattening-threshold=1 --tag=package-2017-04-preview") none none),
  ("customerinsights",
    Project.mk "azure-mgmt-customerinsights"
      "specification/customer-insights/resource-manager/readme.md"
      "com.microsoft.azure.management.customerinsights"
      (some "--payload-flattening-threshold=1 --tag=package-2017-04") none none),
  ("devtestlab",
    Project.mk "azure-mgmt-devtestlab"
      "specification/devtestlabs/resource-manager/readme.md"
      "com.microsoft.azure.management.devtestlab"
      (some "--payload-flattening-threshold=1 --tag=package-2016-05") none none),
  ("iothub",
    Project.mk "azure-mgmt-devices"
      "specification/iothub/resource-manager/readme.md"
      "com.microsoft.azure.management.devices"
      (some "--payload-flattening-threshold=1 --tag=package-2017-01") none none),
  ("logic",
    Project.mk "azure-mgmt-logic"
      "specification/logic/resource-manager/readme.md"
      "com.microsoft.azure.management.logic"
      (some "--payload-flattening-threshold=1 --tag=package-2016-06") none none),
  ("machinelearning",
    Project.mk "azure-mgmt-machinelearning"
      "specification/machinelearning/resource-manager/readme.md"
      "com.microsoft.azure.management.machinelearning"
      (some "--payload-flattening-threshold=1 --tag=package-webservices-2017-01") none none),
  ("powerbi",
    Project.mk "azure-mgmt-powerbi"
      "specification/powerbiembedded/resource-manager/readme.md"
      "com.microsoft.azure.management.powerbi"
      (some "--payload-flattening-threshold=1 --tag=package-2016-01") none none),
  ("recoveryservices",
    Project.mk "azure-mgmt-recoveryservices"
      "arm-recoveryservices/compositeRecoveryServicesClient.json"
      "com.microsoft.azure.management.recoveryservices"
      (some "--payload-flattening-threshold=1") (some "CompositeSwagger") none),
  ("recoveryservicesbackup",
    Project.mk "azure-mgmt-recoveryservicesbackup"
      "arm-recoveryservicesbackup/2016-12-01/swagger/backupManagement.json"
      "com.microsoft.azure.management.recoveryservicesbackup"
      (some "--payload-flattening-threshold=1") none none),
  ("recoveryservicessiterecovery",
    Project.mk "azure-mgmt-recoveryservicessiterecovery"
      "arm-recoveryservicessiterecovery/2016-08-10/swagger/service.json"
      "com.microsoft.azure.management.recoveryservicessiterecovery"
      (some "--payload-flattening-threshold=1") none none),
  ("relay",
    Project.mk "azure-mgmt-relay"
      "arm-relay/2017-04-01/swagger/relay.json"
      "com.microsoft.azure.management.relay"
      (some "--payload-flattening-threshold=1") none none),
  ("servermanagement",
    Project.mk "azure-mgmt-servermanagement"
      "arm-servermanagement/2016-07-01-preview/swagger/servermanagement.json"
      "com.microsoft.azure.management.servermanagement"
      (some "--payload-flattening-threshold=1") none none),
  ("storsimple8000series",
    Project.mk "azure-mgmt-storsimple8000series"
      "arm-storsimple8000series/2017-06-01/swagger/storsimple.json"
      "com.microsoft.azure.management.storsimple8000series"
      (some "--payload-flattening-threshold=1") none none),
  ("streamanalytics",
    Project.mk "azure-mgmt-streamanalytics"
      "arm-streamanalytics/compositeStreamAnalytics.json"
      "com.microsoft.azure.management.streamanalytics"
      (some "--payload-flattening-threshold=1") (some "CompositeSwagger") none),
  ("graphrbac",
    Project.mk "azure-mgmt-graph-rbac"
      "arm-graphrbac/1.6/swagger/graphrbac.json"
      "com.microsoft.azure.management.graphrbac"
      (some "--payload-flattening-threshold=1") none none),
  ("authorization",
    Project.mk "azure-mgmt-authorization"
      "arm-authorization/2015-07-01/swagger/authorization.json"
      "com.microsoft.azure.management.authorization"
      (some "--payload-flattening-threshold=1") none none),
  ("arm-keyvault",
    Project.mk "azure-mgmt-keyvault"
      "arm-keyvault/2015-06-01/swagger/keyvault.json"
      "com.microsoft.azure.management.keyvault"
      (some "--payload-flattening-threshold=1") none none),
  ("storage",
    Project.mk "azure-mgmt-storage"
      "specification/storage/resource-manager/readme.md"
      "com.microsoft.azure.management.storage"
      (some "--payload-flattening-threshold=2 --tag=package-2016-01") none none),
  ("resources",
    Project.mk "azure-mgmt-resources"
      "specification/resources/resource-manager/readme.md"
      "com.microsoft.azure.management.resources --tag=package-resources-2016-09"
      none none none),
  ("subscriptions",
    Project.mk "azure-mgmt-resources"
      "specification/resources/resource-manager/readme.md"
      "com.microsoft.azure.management.resources --tag=package-subscriptions-2016-06"
      none none none),
  ("features",
    Project.mk "azure-mgmt-resources"
      "specification/resources/resource-manager/readme.md"
      "com.microsoft.azure.management.resources --tag=package-features-2015-12"
      none none none),
  ("policy",
    Project.mk "azure-mgmt-resources"
      "specification/resources/resource-manager/readme.md"
      "com.microsoft.azure.management.resources --tag=package-policy-2016-04"
      none none none),
  ("network",
    Project.mk "azure-mgmt-network"
      "specification/network/resource-manager/readme.md"
      "com.microsoft.azure.management.network"
      (some "--payload-flattening-threshold=1") (some "CompositeSwagger") none),
  ("appservice",
    Project.mk "azure-mgmt-appservice"
      "arm-web/compositeWebAppClient.json"
      "com.microsoft.azure.management.appservice"
      (some "--payload-flattening-threshold=1") (some "CompositeSwagger") none),
  ("redis",
    Project.mk "azure-mgmt-redis"
      "arm-redis/2016-04-01/swagger/redis.json"
      "com.microsoft.azure.management.redis"
      (some "--payload-flattening-threshold=1") none none),
  ("search",
    Project.mk "azure-mgmt-search"
      "arm-search/2015-08-19/swagger/search.json"
      "com.microsoft.azure.management.search"
      (some "--payload-flattening-threshold=1") none none),
  ("trafficmanager",
    Project.mk "azure-mgmt-trafficmanager"
      "arm-trafficmanager/2017-05-01/swagger/trafficmanager.json"
      "com.microsoft.azure.management.trafficmanager"
      (some "--payload-flattening-threshold=1") none none),
  ("datalake.store.account",
    Project.mk "azure-mgmt-datalake-store"
      "arm-datalake-store/account/2016-11-01/swagger/account.json"
      "com.microsoft.azure.management.datalake.store"
      none none (some false)),
  ("datalake.analytics.account",
    Project.mk "azure-mgmt-datalake-analytics"
      "arm-datalake-analytics/account/2016-11-01/swagger/account.json"
      "com.microsoft.azure.management.datalake.analytics"
      none none (some false)),
  ("datalake.analytics.job",
    Project.mk "azure-mgmt-datalake-analytics"
      "arm-datalake-analytics/job/2016-11-01/swagger/job.json"
      "com.microsoft.azure.management.datalake.analytics"
      none none (some false)),
  ("datalake.analytics.catalog",
    Project.mk "azure-mgmt-datalake-analytics"
      "arm-datalake-analytics/catalog/2016-11-01/swagger/catalog.json"
      "com.microsoft.azure.management.datalake.analytics"
      none none (some false)),
  ("batchService",
    Project.mk "azure-batch"
      "batch/2016-07-01.3.1/swagger/BatchService.json"
      "com.microsoft.azure.batch.protocol"
      (some "--payload-flattening-threshold=1") none (some false)),
  ("keyvault",
    Project.mk "azure-keyvault"
      "keyvault/2015-06-01/swagger/keyvault.json"
      "com.microsoft.azure.keyvault"
      (some "--payload-flattening-threshold=1") none (some false)),
  ("batch",
    Project.mk "azure-mgmt-batch"
      "arm-batch/2017-05-01/swagger/BatchManagement.json"
      "com.microsoft.azure.management.batch"
      (some "--payload-flattening-threshold=1") none none),
  ("sql",
    Project.mk "azure-mgmt-sql"
      "arm-sql/compositeSql.json"
      "com.microsoft.azure.management.sql"
      (some "--payload-flattening-threshold=1") (some "CompositeSwagger") none),
  ("cdn",
    Project.mk "azure-mgmt-cdn"
      "arm-cdn/2016-10-02/swagger/cdn.json"
      "com.microsoft.azure.management.cdn"
      (some "--payload-flattening-threshold=2") none none),
  ("dns",
    Project.mk "azure-mgmt-dns"
      "arm-dns/2016-04-01/swagger/dns.json"
      "com.microsoft.azure.management.dns"
      (some "--payload-flattening-threshold=1") none none),
  ("servicebus",
    Project.mk "azure-mgmt-servicebus"
      "arm-servicebus/2015-08-01/swagger/servicebus.json"
      "com.microsoft.azure.management.servicebus"
      (some "--payload-flattening-threshold=1") none none),
  ("monitor",
    Project.mk "azure-mgmt-monitor"
      "arm-monitor/compositeMonitorManagementClient.json"
      "com.microsoft.azure.management.monitor"
      (some "--payload-flattening-threshold=1") (some "CompositeSwagger") none),
  ("monitor-dataplane",
    Project.mk "azure-mgmt-monitor"
      "monitor/compositeMonitorClient.json"
      "com.microsoft.azure.management.monitor"
      (some "-FT 1 -ServiceName Monitor") (some "CompositeSwagger") none),
  ("containerregistry",
    Project.mk "azure-mgmt-containerregistry"
      "arm-containerregistry/2017-03-01/swagger/containerregistry.json"
      "com.microsoft.azure.management.containerregistry"
      (some "--payload-flattening-threshold=1") none none),
  ("scheduler",
    Project.mk "azure-mgmt-scheduler"
      "arm-scheduler/2016-03-01/swagger/scheduler.json"
      "com.microsoft.azure.management.scheduler"
      (some "-FT 1") none none),
  ("cosmosdb",
    Project.mk "azure-mgmt-cosmosdb"
      "arm-documentdb/2015-04-08/swagger/documentdb.json"
      "com.microsoft.azure.management.cosmosdb"
      (some "--payload-flattening-threshold=1") none none)]

/-- The property names every plain object inherits from `Object.prototype`. -/
def objectPrototypeKeys : List String :=
  ["constructor", "__defineGetter__", "__defineSetter__", "hasOwnProperty",
   "__lookupGetter__", "__lookupSetter__", "isPrototypeOf", "propertyIsEnumerable",
   "toString", "valueOf", "__proto__", "toLocaleString"]

/-- The value of a property access `mappings[name]`. -/
inductive Property where
  | own (p : Project)
  | inherited
  | undefined
  deriving DecidableEq

/-- The first entry of the registry with the given key. -/
def lookupProject (name : String) : List (String × Project) → Option Project
  | [] => none
  | e :: es => if e.1 = name then some e.2 else lookupProject name es

/-- The expression `mappings[name]`: `mappings` is an object literal, so a name that is not one
of its keys is looked up in `Object.prototype`, and only then is the value `undefined`. -/
def getProperty (name : String) : Property :=
  match lookupProject name mappings with
  | some p => .own p
  | none => if name ∈ objectPrototypeKeys then .inherited else .undefined

/-! ## Options and top-level variables -/

/-- The parsed command line (`args`, from yargs) and the working directory of the process. -/
structure Args where
  specRoot : Option String
  projects : Option String
  autorest : Option String
  autorestArgs : Option String
  autorestJava : Option String
  regenerateManager : Bool
  preserve : Bool
  cwd : String

/-- The expression `v || d` for an option that is a string when present. -/
def orDefault (v : Option String) (d : String) : String :=
  match v with
  | some s => if s = "" then d else s
  | none => d

/-- The variable `specRoot`. -/
def specRoot (a : Args) : String :=
  orDefault a.specRoot "https://raw.githubusercontent.com/Azure/azure-rest-api-specs/current"

/-- The variable `autoRestVersion`. -/
def autoRestVersion (a : Args) : String :=
  match a.autorest with
  | some v => v
  | none => "latest"

/-- The variable `autoRestArgs`. -/
def autoRestArgs (a : Args) : String := orDefault a.autorestArgs ""

/-- The value the `codegen` task assigns to `autoRestExe`. -/
def autoRestExe (a : Args) : String :=
  if matchVersion (autoRestVersion a) || autoRestVersion a == "latest" then
    "autorest ---version=" ++ autoRestVersion a
  else
    "node " ++ pathJoin [autoRestVersion a, "src/autorest-core/dist/app.js"]

/-! ## Effects -/

/-- What the script does to the outside, in order. -/
inductive Event where
  | log (text : String)
  | error (text : String)
  | deleteFolderRecursive (path : String)
  | spawn (cmd : String)

/-- The state of a run: the file system and the events so far. -/
structure World where
  fs : Node
  events : List Event

/-- Record an event. -/
def World.emit (w : World) (e : Event) : World := ⟨w.fs, w.events ++ [e]⟩

/-- How a piece of the script ends: it returns, the process exits with a status, or an
exception is thrown and not caught. -/
inductive Result where
  | done (w : World)
  | exit (w : World) (code : Nat)
  | uncaught (w : World) (err : JsError)

/-- The state in which a piece of the script ended. -/
def Result.world : Result → World
  | .done w => w
  | .exit w _ => w
  | .uncaught w _ => w

/-- The method `forEach` with a callback that can end the run. -/
def forEach {α : Type} (f : α → World → Result) : List α → World → Result
  | [], w => .done w
  | x :: rest, w =>
    match f x w with
    | .done w1 => forEach f rest w1
    | r => r

/-! ## codegen and handleInput -/

/-- The argument `sourcesToDelete` of the call to `deleteFolderRecursive` in `codegen`. -/
def sourcesToDelete (p : Project) : String :=
  pathJoin [p.dir, "/src/main/java/", replaceDots p.package]

/-- The string `cmd` built by `codegen`: the first assignment, then the `args` of the entry when
there are some. -/
def cmd (a : Args) (exe : String) (p : Project) : String :=
  let generator := if p.fluent = some false then "" else "--fluent"
  let generatorPath :=
    match a.autorestJava with
    | some java =>
      if java = "" then "" else "--use=" ++ pathResolve a.cwd [autoRestVersion a, java] ++ " "
    | none => ""
  let regenManager := if a.regenerateManager then " --regenerate-manager=true " else ""
  let outDir := pathResolve a.cwd [p.dir]
  let first := exe ++ " " ++ specRoot a ++ "/" ++ p.source ++
    " --java " ++
    " --azure-arm " ++
    generator ++
    " --namespace=" ++ p.package ++ " " ++
    " --output-folder=" ++ outDir ++ " " ++
    " --license-header=MICROSOFT_MIT_NO_CODEGEN " ++
    generatorPath ++
    regenManager ++
    autoRestArgs a
  match p.args with
  | some extra => first ++ " " ++ extra
  | none => first

/-- The function `codegen(project, cb)`; `exe` is the global `autoRestExe`. -/
def codegen (a : Args) (exe : String) (project : String) (w : World) : Result :=
  match getProperty project with
  | .undefined => .uncaught w .TypeError
  | .inherited =>
    if a.preserve then
      .uncaught (w.emit (.log ("Generating \"" ++ project ++ "\" from spec file " ++
        specRoot a ++ "/" ++ "undefined"))) .TypeError
    else .uncaught w .TypeError
  | .own p =>
    let cleaned : Result :=
      if a.preserve then .done w
      else
        let w1 := w.emit (.deleteFolderRecursive (sourcesToDelete p))
        match deleteFolderRecursive w1.fs (sourcesToDelete p) with
        | .ok fs1 => .done ⟨fs1, w1.events⟩
        | .error err => .uncaught w1 err
    match cleaned with
    | .done w1 =>
      let w2 := w1.emit (.log ("Generating \"" ++ project ++ "\" from spec file " ++
        specRoot a ++ "/" ++ p.source))
      let w3 := w2.emit (.log ("Command: " ++ cmd a exe p))
      .done (w3.emit (.spawn (cmd a exe p)))
    | r => r

/-- The callback of `projects.split(",").forEach` in `handleInput`. -/
def handleInputEntry (a : Args) (exe : String) (proj : String) (w : World) : Result :=
  let proj := removeSpaces proj
  match getProperty proj with
  | .undefined => .exit (w.emit (.error ("Invalid project name \"" ++ proj ++ "\"!"))) 1
  | _ => codegen a exe proj w

/-- The function `handleInput(projects, cb)`. -/
def handleInput (a : Args) (exe : String) (projects : Option String) (w : World) : Result :=
  match projects with
  | none => forEach (fun proj w1 => codegen a exe proj w1) (mappings.map Prod.fst) w
  | some names => forEach (handleInputEntry a exe) (splitComma names) w

/-- The gulp task `codegen`. -/
def codegenTask (a : Args) (w : World) : Result :=
  if matchVersion (autoRestVersion a) || autoRestVersion a == "latest" then
    handleInput a ("autorest ---version=" ++ autoRestVersion a) a.projects w
  else
    handleInput a ("node " ++ pathJoin [autoRestVersion a, "src/autorest-core/dist/app.js"])
      a.projects w

/-! ## Sample inputs -/

/-- A command line without options, in the working directory `/home/user/sdk`. -/
def sampleArgs : Args := ⟨none, none, none, none, none, false, false, "/home/user/sdk"⟩

/-- A run that starts in an empty working directory with no events. -/
def emptyWorld : World := ⟨.dir [], []⟩

/-- The entry `compute` of the registry. -/
def computeProject : Project :=
  Project.mk "azure-mgmt-compute"
    "specification/compute/resource-manager/readme.md"
    "com.microsoft.azure.management.compute"
    (some "--payload-flattening-threshold=1 --tag=package-2017-03") (some "CompositeSwagger") none

/-- The strings `codegen` puts into the command besides its fixed text and the fluent flag:
the executable, `specRoot`, the fields of the entry, the resolved paths and the extra
arguments. -/
def insertedStrings (a : Args) (exe : String) (p : Project) : List String :=
  [exe, specRoot a, p.source, p.package, pathResolve a.cwd [p.dir], autoRestArgs a] ++
    (match a.autorestJava with
      | some java => if java = "" then [] else [pathResolve a.cwd [autoRestVersion a, java]]
      | none => []) ++
    (match p.args with
      | some extra => [extra]
      | none => [])

/-- The entry `keyvault` of the registry, one of those with `fluent` set to `false`. -/
def keyvaultProject : Project :=
  Project.mk "azure-keyvault"
    "keyvault/2015-06-01/swagger/keyvault.json"
    "com.microsoft.azure.keyvault"
    (some "--payload-flattening-threshold=1") none (some false)

/-- A command line with `--autorest-args=--fluent`. -/
def fluentArgs : Args := ⟨none, none, none, some "--fluent", none, false, false, "/home/user/sdk"⟩

/-- Declarative reading of the regular expression `[0-9]+\.[0-9]+\.[0-9]+.*` searched in a
string: somewhere in the string (after any text `pre`) there are three non-empty runs of digits
separated by dots, followed by any text. -/
def HasVersionNumber (s : String) : Prop :=
  ∃ pre d1 d2 d3 suf : List Char,
    s.data = pre ++ (d1 ++ '.' :: (d2 ++ '.' :: (d3 ++ suf))) ∧
    d1 ≠ [] ∧ d2 ≠ [] ∧ d3 ≠ [] ∧
    (∀ c ∈ d1, c.isDigit = true) ∧ (∀ c ∈ d2, c.isDigit = true) ∧ (∀ c ∈ d3, c.isDigit = true)

/-- A command line with `--autorest /opt/autorest-1.0.1`, the location of an AutoRest repo. -/
def repoPathArgs : Args :=
  ⟨none, none, some "/opt/autorest-1.0.1", none, none, false, false, "/home/user/sdk"⟩

/-- A command line with `--autorest 1.0.1-20170222-2300-nightly`. -/
def nightlyArgs : Args :=
  ⟨none, none, some "1.0.1-20170222-2300-nightly", none, none, false, false, "/home/user/sdk"⟩

/-- Contents of a generated file. -/
def generatedText : String :=
  "/** Code generated by Microsoft (R) AutoRest Code Generator. */ package a;"

/-- The entries of the directory `out` of `sampleTree`. -/
def sampleOut : List (String × Node) :=
  [("a.java", .file generatedText),
   ("b.java", .file "package b;"),
   ("sub", .dir [("c.java", .file generatedText), ("notes.txt", .file "keep")]),
   ("gen", .dir [("d.java", .file generatedText)])]

/-- A working directory with generated and hand-written files. -/
def sampleTree : Node :=
  .dir [("out", .dir sampleOut), ("x.java", .file generatedText)]

/-! # Theorems -/

set_option maxRecDepth 100000

/-! ## Path strings -/

theorem splitOnChar_ne_nil (sep : Char) (cs : List Char) : splitOnChar sep cs ≠ [] := by
  induction cs with
  | nil => simp [splitOnChar]
  | cons c cs ih =>
    unfold splitOnChar
    split
    · simp
    · split <;> simp

theorem splitOnChar_append_sep (sep : Char) (a b : List Char) :
    splitOnChar sep (a ++ sep :: b) = splitOnChar sep a ++ splitOnChar sep b := by
  induction a with
  | nil => simp [splitOnChar]
  | cons c a ih =>
    by_cases hc : c = sep
    · simp [splitOnChar, hc, ih]
    · have hne := splitOnChar_ne_nil sep a
      cases hs : splitOnChar sep a with
      | nil => exact absurd hs hne
      | cons seg segs => simp [splitOnChar, hc, ih, hs]

theorem splitOnChar_of_not_mem (sep : Char) (f : List Char) (h : sep ∉ f) :
    splitOnChar sep f = [f] := by
  induction f with
  | nil => simp [splitOnChar]
  | cons c f ih =>
    have hc : c ≠ sep := fun e => h (by simp [e])
    have hf : sep ∉ f := fun e => h (by simp [e])
    simp [splitOnChar, hc, ih hf]

theorem components_append_slash (p q : String) :
    components (p ++ "/" ++ q) = components p ++ components q := by
  have h : (p ++ "/" ++ q).data = p.data ++ '/' :: q.data := by
    simp [String.data_append]
  simp [components, h, splitOnChar_append_sep]

theorem components_of_validName (f : String) (h : validName f = true) : components f = [f] := by
  simp only [validName, decide_eq_true_eq] at h
  obtain ⟨h1, h2, -, h4⟩ := h
  simp [components, splitOnChar_of_not_mem _ _ h4, h1, h2]

theorem components_append_name (p f : String) (h : validName f = true) :
    components (p ++ "/" ++ f) = components p ++ [f] := by
  rw [components_append_slash, components_of_validName f h]

/-- Every list of valid names is the list of components of a relative path string, so that the
paths `path ++ "/" ++ rel` reach every object below `path`. -/
theorem components_relativePath (q : List String) (h : ∀ name ∈ q, validName name = true) :
    components (relativePath q) = q := by
  induction q with
  | nil => decide
  | cons name rest ih =>
    have h1 := h name (by simp)
    have h2 := ih (fun n hn => h n (by simp [hn]))
    simp only [relativePath]
    rw [components_append_slash, components_of_validName name h1, h2]
    rfl

/-! ## Directory listings and trees -/

theorem lookupEntry_append (c : String) (xs ys : List (String × Node)) :
    lookupEntry c (xs ++ ys) =
      match lookupEntry c xs with
      | some n => some n
      | none => lookupEntry c ys := by
  induction xs with
  | nil => simp [lookupEntry]
  | cons e xs ih =>
    by_cases h : e.1 = c <;> simp [lookupEntry, h, ih]

theorem lookupEntry_eq_none_iff (c : String) (xs : List (String × Node)) :
    lookupEntry c xs = none ↔ ∀ e ∈ xs, e.1 ≠ c := by
  induction xs with
  | nil => simp [lookupEntry]
  | cons e xs ih =>
    by_cases h : e.1 = c <;> simp [lookupEntry, h, ih]

theorem lookupEntry_updateEntry_self (c : String) (f : Node → Node) (es : List (String × Node)) :
    lookupEntry c (updateEntry c f es) = (lookupEntry c es).map f := by
  induction es with
  | nil => simp [lookupEntry, updateEntry]
  | cons e es ih =>
    by_cases h : e.1 = c <;> simp [lookupEntry, updateEntry, h, ih]

theorem updateEntry_updateEntry (c : String) (f g : Node → Node) (es : List (String × Node)) :
    updateEntry c g (updateEntry c f es) = updateEntry c (fun x => g (f x)) es := by
  induction es with
  | nil => simp [updateEntry]
  | cons e es ih =>
    by_cases h : e.1 = c <;> simp [updateEntry, h, ih]

theorem updateEntry_congr (c : String) (f g : Node → Node) (es : List (String × Node))
    (h : ∀ x, lookupEntry c es = some x → f x = g x) :
    updateEntry c f es = updateEntry c g es := by
  induction es with
  | nil => simp [updateEntry]
  | cons e es ih =>
    by_cases hc : e.1 = c
    · have := h e.2 (by simp [lookupEntry, hc])
      simp [updateEntry, hc, this]
    · have := ih (fun x hx => h x (by simpa [lookupEntry, hc] using hx))
      simp [updateEntry, hc, this]

theorem updateEntry_id (c : String) (es : List (String × Node)) :
    updateEntry c (fun x => x) es = es := by
  induction es with
  | nil => simp [updateEntry]
  | cons e es ih =>
    by_cases h : e.1 = c
    · simp only [updateEntry, if_pos h]
    · simp [updateEntry, h, ih]

theorem updateEntry_append_of_not_mem (c : String) (f : Node → Node)
    (xs ys : List (String × Node)) (h : ∀ e ∈ xs, e.1 ≠ c) :
    updateEntry c f (xs ++ ys) = xs ++ updateEntry c f ys := by
  induction xs with
  | nil => simp
  | cons e xs ih =>
    have he : e.1 ≠ c := h e (by simp)
    have := ih (fun e1 h1 => h e1 (by simp [h1]))
    simp [updateEntry, he, this]

theorem Node.lookup?_nil (n : Node) : n.lookup? [] = some n := by
  cases n <;> rfl

theorem Node.lookup?_cons_dir (es : List (String × Node)) (c : String) (rest : List String) :
    (Node.dir es).lookup? (c :: rest) =
      match lookupEntry c es with
      | some child => child.lookup? rest
      | none => none := rfl

theorem Node.lookup?_cons_file (x : String) (c : String) (rest : List String) :
    (Node.file x).lookup? (c :: rest) = none := rfl

theorem Node.lookup?_append (n : Node) (cs q : List String) :
    n.lookup? (cs ++ q) =
      match n.lookup? cs with
      | some m => m.lookup? q
      | none => none := by
  induction cs generalizing n with
  | nil => simp [Node.lookup?_nil]
  | cons c cs ih =>
    cases n with
    | file x => simp [Node.lookup?_cons_file]
    | dir es =>
      simp only [List.cons_append, Node.lookup?_cons_dir]
      cases h : lookupEntry c es with
      | none => simp
      | some child => simp [ih]

theorem Node.replaceAt_nil (n new : Node) : Node.replaceAt [] n new = new := by
  cases n <;> rfl

theorem Node.replaceAt_cons_dir (c : String) (rest : List String) (es : List (String × Node))
    (new : Node) :
    Node.replaceAt (c :: rest) (.dir es) new =
      .dir (updateEntry c (fun x => Node.replaceAt rest x new) es) := rfl

/-- Replacing the object at a path by itself changes nothing. -/
theorem Node.replaceAt_self (cs : List String) (n sub : Node) (h : n.lookup? cs = some sub) :
    Node.replaceAt cs n sub = n := by
  induction cs generalizing n with
  | nil =>
    rw [Node.lookup?_nil] at h
    rw [Node.replaceAt_nil]
    exact (Option.some.inj h).symm
  | cons c cs ih =>
    cases n with
    | file x => simp [Node.lookup?_cons_file] at h
    | dir es =>
      rw [Node.lookup?_cons_dir] at h
      rw [Node.replaceAt_cons_dir]
      congr 1
      rw [updateEntry_congr c _ (fun x => x) es, updateEntry_id]
      intro x hx
      rw [hx] at h
      exact ih x h

/-- After a replacement the path resolves to the new object. -/
theorem Node.lookup?_replaceAt (cs : List String) (n sub new : Node)
    (h : n.lookup? cs = some sub) : (Node.replaceAt cs n new).lookup? cs = some new := by
  induction cs generalizing n with
  | nil => rw [Node.replaceAt_nil, Node.lookup?_nil]
  | cons c cs ih =>
    cases n with
    | file x => simp [Node.lookup?_cons_file] at h
    | dir es =>
      rw [Node.lookup?_cons_dir] at h
      rw [Node.replaceAt_cons_dir, Node.lookup?_cons_dir, lookupEntry_updateEntry_self]
      cases hc : lookupEntry c es with
      | none => simp [hc] at h
      | some child =>
        rw [hc] at h
        simpa using ih child h

/-- Two replacements at the same path: the second one wins. -/
theorem Node.replaceAt_replaceAt (cs : List String) (n a b : Node) :
    Node.replaceAt cs (Node.replaceAt cs n a) b = Node.replaceAt cs n b := by
  induction cs generalizing n with
  | nil => simp [Node.replaceAt_nil]
  | cons c cs ih =>
    cases n with
    | file x => rfl
    | dir es =>
      simp only [Node.replaceAt_cons_dir, updateEntry_updateEntry, ih]

/-- A replacement below a path is a replacement at the path. -/
theorem Node.replaceAt_append (cs q : List String) (n sub new : Node)
    (h : n.lookup? cs = some sub) :
    Node.replaceAt (cs ++ q) n new = Node.replaceAt cs n (Node.replaceAt q sub new) := by
  induction cs generalizing n with
  | nil =>
    rw [Node.lookup?_nil] at h
    cases h
    simp [Node.replaceAt_nil]
  | cons c cs ih =>
    cases n with
    | file x => simp [Node.lookup?_cons_file] at h
    | dir es =>
      rw [Node.lookup?_cons_dir] at h
      simp only [List.cons_append, Node.replaceAt_cons_dir]
      congr 1
      apply updateEntry_congr
      intro x hx
      rw [hx] at h
      exact ih x h

/-- Removing a file below a path, seen from the path. -/
theorem Node.unlink_append (cs : List String) (c : String) (n : Node)
    (es : List (String × Node)) (content : String)
    (h : n.lookup? cs = some (.dir es)) (hc : lookupEntry c es = some (.file content)) :
    Node.unlink (cs ++ [c]) n =
      .ok (Node.replaceAt cs n (.dir (es.filter (fun e => decide (e.1 ≠ c))))) := by
  induction cs generalizing n with
  | nil =>
    rw [Node.lookup?_nil] at h
    cases h
    simp [Node.unlink, hc, Node.replaceAt_nil]
  | cons d cs ih =>
    cases n with
    | file x => simp [Node.lookup?_cons_file] at h
    | dir es1 =>
      rw [Node.lookup?_cons_dir] at h
      cases hd : lookupEntry d es1 with
      | none => simp [hd] at h
      | some child =>
        rw [hd] at h
        have hih := ih child h
        cases hcs : cs ++ [c] with
        | nil => simp at hcs
        | cons c1 rest =>
          rw [hcs] at hih
          simp only [List.cons_append, hcs, Node.unlink, hd, hih, Node.replaceAt_cons_dir]
          congr 2
          apply updateEntry_congr
          intro x hx
          rw [hd] at hx
          cases hx
          rfl

/-! ## The traversal -/

theorem wfEntries_cons (name : String) (n : Node) (rest : List (String × Node)) :
    wfEntries ((name, n) :: rest) = true ↔
      validName name = true ∧ (∀ e ∈ rest, e.1 ≠ name) ∧ n.wf = true ∧ wfEntries rest = true := by
  simp [wfEntries, and_assoc]

theorem heightEntries_cons (name : String) (n : Node) (rest : List (String × Node)) :
    heightEntries ((name, n) :: rest) = max n.height (heightEntries rest) := by
  simp [heightEntries]

theorem cleanEntries_cons_file (name content : String) (rest : List (String × Node)) :
    cleanEntries ((name, .file content) :: rest) =
      if hasMarker content then cleanEntries rest
      else (name, .file content) :: cleanEntries rest := by
  simp [cleanEntries]

theorem cleanEntries_cons_dir (name : String) (es rest : List (String × Node)) :
    cleanEntries ((name, .dir es) :: rest) = (name, .dir (cleanEntries es)) :: cleanEntries rest := by
  simp [cleanEntries, cleanNode]

theorem deleteFolderRecursiveAux_succ (fuel : Nat) (fs : Node) (path : String) :
    deleteFolderRecursiveAux (fuel + 1) fs path =
      if existsSync fs path then
        match readdirSync fs path with
        | .error err => .error err
        | .ok files => files.foldlM (visitEntry fuel path) fs
      else .ok fs := rfl

theorem filter_ne_append_cons (name : String) (n : Node) (xs ys : List (String × Node))
    (hx : ∀ e ∈ xs, e.1 ≠ name) (hy : ∀ e ∈ ys, e.1 ≠ name) :
    (xs ++ (name, n) :: ys).filter (fun e => decide (e.1 ≠ name)) = xs ++ ys := by
  rw [List.filter_append, List.filter_cons]
  simp only [ne_eq, not_true_eq_false, decide_False, Bool.false_eq_true, if_false]
  rw [List.filter_eq_self.2, List.filter_eq_self.2]
  · intro e he; simpa using hy e he
  · intro e he; simpa using hx e he

/-- The loop of the traversal: with the entries `done` already visited and `todo` still to
visit, the loop ends with `todo` cleaned. -/
theorem foldlM_visitEntry (fuel : Nat) (path : String) (fs root : Node)
    (hM : ∀ (fs1 : Node) (p : String) (es : List (String × Node)),
      fs1.lookup? (components p) = some (.dir es) → wfEntries es = true →
      heightEntries es + 1 ≤ fuel →
      deleteFolderRecursiveAux fuel fs1 p =
        .ok (Node.replaceAt (components p) fs1 (.dir (cleanEntries es))))
    (hroot : fs.lookup? (components path) = some root) :
    ∀ (todo done : List (String × Node)), wfEntries todo = true →
      (∀ e ∈ done, ∀ e1 ∈ todo, e.1 ≠ e1.1) → heightEntries todo ≤ fuel →
      (todo.map Prod.fst).foldlM (visitEntry fuel path)
          (Node.replaceAt (components path) fs (.dir (done ++ todo))) =
        .ok (Node.replaceAt (components path) fs (.dir (done ++ cleanEntries todo))) := by
  intro todo
  induction todo with
  | nil =>
    intro done _ _ _
    simp [cleanEntries, pure, Except.pure]
  | cons e todo ih =>
    obtain ⟨name, n⟩ := e
    intro done hwf hdisj hheight
    rw [wfEntries_cons] at hwf
    obtain ⟨hname, hfresh, hnwf, hrest⟩ := hwf
    rw [heightEntries_cons] at hheight
    have hdone : ∀ e ∈ done, e.1 ≠ name := fun e he => hdisj e he (name, n) (by simp)
    have hcomp : components (path ++ "/" ++ name) = components path ++ [name] :=
      components_append_name path name hname
    have hcur : (Node.replaceAt (components path) fs (.dir (done ++ (name, n) :: todo))).lookup?
        (components path) = some (.dir (done ++ (name, n) :: todo)) :=
      Node.lookup?_replaceAt _ _ _ _ hroot
    have hentry : lookupEntry name (done ++ (name, n) :: todo) = some n := by
      rw [lookupEntry_append, (lookupEntry_eq_none_iff name done).2 hdone]
      simp [lookupEntry]
    have hlook : (Node.replaceAt (components path) fs (.dir (done ++ (name, n) :: todo))).lookup?
        (components (path ++ "/" ++ name)) = some n := by
      rw [hcomp, Node.lookup?_append, hcur]
      simp [Node.lookup?_cons_dir, hentry, Node.lookup?_nil]
    have hdisj2 : ∀ x : Node, ∀ e ∈ done ++ [(name, x)], ∀ e1 ∈ todo, e.1 ≠ e1.1 := by
      intro x e he e1 he1
      rcases List.mem_append.1 he with h | h
      · exact hdisj e h e1 (by simp [he1])
      · simp only [List.mem_singleton] at h
        subst h
        exact fun heq => hfresh e1 he1 heq.symm
    have hih := fun x => ih (done ++ [(name, x)]) hrest (hdisj2 x) (le_trans (le_max_right _ _) hheight)
    simp only [List.append_assoc, List.singleton_append] at hih
    simp only [List.map_cons, List.foldlM_cons, bind, Except.bind]
    cases n with
    | file content =>
      have hstep : visitEntry fuel path
          (Node.replaceAt (components path) fs (.dir (done ++ (name, .file content) :: todo))) name =
          .ok (Node.replaceAt (components path) fs
            (.dir (done ++ (if hasMarker content then todo else (name, .file content) :: todo)))) := by
        simp only [visitEntry, lstatSyncIsDirectory, readFileSync, hlook]
        by_cases hm : hasMarker content = true
        · simp only [hm, if_true, unlinkSync, hcomp]
          rw [Node.unlink_append _ _ _ _ content hcur hentry, Node.replaceAt_replaceAt,
            filter_ne_append_cons _ _ _ _ hdone hfresh]
        · simp [hm]
      rw [hstep, cleanEntries_cons_file]
      by_cases hm : hasMarker content = true
      · simp only [hm, if_true]
        exact ih done hrest (fun e he e1 he1 => hdisj e he e1 (by simp [he1]))
          (le_trans (le_max_right _ _) hheight)
      · simp only [hm, if_false, Bool.false_eq_true]
        exact hih (.file content)
    | dir es =>
      have hes : wfEntries es = true := hnwf
      have hh : heightEntries es + 1 ≤ fuel := le_trans (le_max_left _ _) hheight
      have hstep : visitEntry fuel path
          (Node.replaceAt (components path) fs (.dir (done ++ (name, .dir es) :: todo))) name =
          .ok (Node.replaceAt (components path) fs
            (.dir (done ++ (name, .dir (cleanEntries es)) :: todo))) := by
        simp only [visitEntry, lstatSyncIsDirectory, hlook]
        rw [hM _ _ es hlook hes hh, hcomp, Node.replaceAt_append _ _ _ _ _ hcur,
          Node.replaceAt_replaceAt, Node.replaceAt_cons_dir,
          updateEntry_append_of_not_mem _ _ _ _ hdone]
        simp [updateEntry, Node.replaceAt_nil]
      rw [hstep, cleanEntries_cons_dir]
      exact hih (.dir (cleanEntries es))

/-- The result of the traversal in closed form, for any sufficient budget. -/
theorem deleteFolderRecursiveAux_eq (fuel : Nat) :
    ∀ (fs : Node) (path : String) (es : List (String × Node)),
      fs.lookup? (components path) = some (.dir es) → wfEntries es = true →
      heightEntries es + 1 ≤ fuel →
      deleteFolderRecursiveAux fuel fs path =
        .ok (Node.replaceAt (components path) fs (.dir (cleanEntries es))) := by
  induction fuel with
  | zero => intro fs path es _ _ h; omega
  | succ fuel ih =>
    intro fs path es hroot hwf hheight
    rw [deleteFolderRecursiveAux_succ]
    simp only [existsSync, readdirSync, hroot, Option.isSome_some, if_true]
    have := foldlM_visitEntry fuel path fs (.dir es) ih hroot es [] hwf (by simp) (by omega)
    simpa [Node.replaceAt_self _ _ _ hroot] using this

theorem height_le_of_lookupEntry (c : String) (es : List (String × Node)) (n : Node)
    (h : lookupEntry c es = some n) : n.height ≤ heightEntries es := by
  induction es with
  | nil => simp [lookupEntry] at h
  | cons e es ih =>
    obtain ⟨name, m⟩ := e
    rw [heightEntries_cons]
    by_cases hc : name = c
    · simp [lookupEntry, hc] at h
      subst h
      exact le_max_left _ _
    · simp [lookupEntry, hc] at h
      exact le_trans (ih h) (le_max_right _ _)

theorem Node.height_le_of_lookup? (cs : List String) (n sub : Node)
    (h : n.lookup? cs = some sub) : sub.height ≤ n.height := by
  induction cs generalizing n with
  | nil =>
    rw [Node.lookup?_nil] at h
    cases h
    exact le_refl _
  | cons c cs ih =>
    cases n with
    | file x => simp [Node.lookup?_cons_file] at h
    | dir es =>
      rw [Node.lookup?_cons_dir] at h
      cases hc : lookupEntry c es with
      | none => simp [hc] at h
      | some child =>
        rw [hc] at h
        have h1 := ih child h
        have h2 := height_le_of_lookupEntry c es child hc
        simp only [Node.height]
        omega

/-- The result of `deleteFolderRecursive` on an existing directory, in closed form; in
particular the recursion budget is not used up. -/
theorem deleteFolderRecursive_eq (fs : Node) (path : String) (es : List (String × Node))
    (hroot : fs.lookup? (components path) = some (.dir es)) (hwf : wfEntries es = true) :
    deleteFolderRecursive fs path =
      .ok (Node.replaceAt (components path) fs (.dir (cleanEntries es))) := by
  have h := Node.height_le_of_lookup? _ _ _ hroot
  simp only [Node.height] at h
  exact deleteFolderRecursiveAux_eq _ fs path es hroot hwf (by omega)

theorem wf_of_lookupEntry (c : String) (es : List (String × Node)) (n : Node)
    (hwf : wfEntries es = true) (h : lookupEntry c es = some n) : n.wf = true := by
  induction es with
  | nil => simp [lookupEntry] at h
  | cons e es ih =>
    obtain ⟨name, m⟩ := e
    rw [wfEntries_cons] at hwf
    by_cases hc : name = c
    · simp [lookupEntry, hc] at h
      subst h
      exact hwf.2.2.1
    · simp [lookupEntry, hc] at h
      exact ih hwf.2.2.2 h

/-- What a name resolves to in a cleaned listing. -/
theorem lookupEntry_cleanEntries (c : String) (es : List (String × Node))
    (hwf : wfEntries es = true) :
    lookupEntry c (cleanEntries es) =
      match lookupEntry c es with
      | some (.file content) => if hasMarker content then none else some (.file content)
      | some (.dir es1) => some (.dir (cleanEntries es1))
      | none => none := by
  induction es with
  | nil => simp [cleanEntries, lookupEntry]
  | cons e es ih =>
    obtain ⟨name, n⟩ := e
    rw [wfEntries_cons] at hwf
    obtain ⟨-, hfresh, -, hrest⟩ := hwf
    have ih1 := ih hrest
    cases n with
    | file content =>
      rw [cleanEntries_cons_file]
      by_cases hc : name = c
      · subst hc
        have hnone : lookupEntry name es = none := (lookupEntry_eq_none_iff _ _).2 hfresh
        by_cases hm : hasMarker content = true
        · simp [hm, lookupEntry, ih1, hnone]
        · simp [hm, lookupEntry]
      · by_cases hm : hasMarker content = true
        · simp [hm, lookupEntry, hc, ih1]
        · simp [hm, lookupEntry, hc, ih1]
    | dir es1 =>
      rw [cleanEntries_cons_dir]
      by_cases hc : name = c
      · simp [lookupEntry, hc]
      · simp [lookupEntry, hc, ih1]

/-- What a path resolves to below a cleaned directory. -/
theorem lookup?_cleanEntries (q : List String) :
    ∀ es : List (String × Node), wfEntries es = true →
      (Node.dir (cleanEntries es)).lookup? q =
        match (Node.dir es).lookup? q with
        | some (.file content) => if hasMarker content then none else some (.file content)
        | some (.dir es1) => some (.dir (cleanEntries es1))
        | none => none := by
  induction q with
  | nil => intro es _; simp [Node.lookup?_nil]
  | cons c rest ih =>
    intro es hwf
    rw [Node.lookup?_cons_dir, Node.lookup?_cons_dir, lookupEntry_cleanEntries c es hwf]
    cases hc : lookupEntry c es with
    | none => simp
    | some child =>
      cases child with
      | file content =>
        cases rest with
        | nil =>
          by_cases hm : hasMarker content = true <;> simp [hm, Node.lookup?_nil]
        | cons d rest1 =>
          by_cases hm : hasMarker content = true <;> simp [hm, Node.lookup?_cons_file]
      | dir es1 =>
        have hwf1 : wfEntries es1 = true := wf_of_lookupEntry c es _ hwf hc
        simpa using ih es1 hwf1

theorem mem_cleanEntries_name (es : List (String × Node)) :
    ∀ e ∈ cleanEntries es, ∃ e1 ∈ es, e1.1 = e.1 := by
  induction es with
  | nil => simp [cleanEntries]
  | cons e0 es ih =>
    obtain ⟨name, n⟩ := e0
    intro e he
    cases n with
    | file content =>
      rw [cleanEntries_cons_file] at he
      by_cases hm : hasMarker content = true
      · simp only [hm, if_true] at he
        obtain ⟨e1, h1, h2⟩ := ih e he
        exact ⟨e1, by simp [h1], h2⟩
      · simp only [hm, if_false, Bool.false_eq_true, List.mem_cons] at he
        rcases he with h | h
        · exact ⟨(name, .file content), by simp, by rw [h]⟩
        · obtain ⟨e1, h1, h2⟩ := ih e h
          exact ⟨e1, by simp [h1], h2⟩
    | dir es1 =>
      rw [cleanEntries_cons_dir, List.mem_cons] at he
      rcases he with h | h
      · exact ⟨(name, .dir es1), by simp, by rw [h]⟩
      · obtain ⟨e1, h1, h2⟩ := ih e h
        exact ⟨e1, by simp [h1], h2⟩

mutual
theorem cleanNode_idem : ∀ n : Node, cleanNode (cleanNode n) = cleanNode n
  | .file _ => by simp [cleanNode]
  | .dir es => by simp [cleanNode, cleanEntries_idem es]
theorem cleanEntries_idem :
    ∀ es : List (String × Node), cleanEntries (cleanEntries es) = cleanEntries es
  | [] => by simp [cleanEntries]
  | (name, .file content) :: rest => by
    rw [cleanEntries_cons_file]
    by_cases hm : hasMarker content = true
    · simp [hm, cleanEntries_idem rest]
    · simp [hm, cleanEntries_cons_file, cleanEntries_idem rest]
  | (name, .dir es) :: rest => by
    rw [cleanEntries_cons_dir, cleanEntries_cons_dir, cleanEntries_idem es, cleanEntries_idem rest]
end

mutual
theorem cleanNode_wf : ∀ n : Node, n.wf = true → (cleanNode n).wf = true
  | .file _ => by simp [cleanNode]
  | .dir es => by
    intro h
    simpa [cleanNode, Node.wf] using cleanEntries_wf es (by simpa [Node.wf] using h)
theorem cleanEntries_wf :
    ∀ es : List (String × Node), wfEntries es = true → wfEntries (cleanEntries es) = true
  | [] => by simp [cleanEntries]
  | (name, .file content) :: rest => by
    intro h
    rw [wfEntries_cons] at h
    obtain ⟨h1, h2, h3, h4⟩ := h
    have ih := cleanEntries_wf rest h4
    rw [cleanEntries_cons_file]
    by_cases hm : hasMarker content = true
    · simpa [hm] using ih
    · simp only [hm, if_false, Bool.false_eq_true]
      rw [wfEntries_cons]
      refine ⟨h1, ?_, h3, ih⟩
      intro e he
      obtain ⟨e1, he1, hn⟩ := mem_cleanEntries_name rest e he
      rw [← hn]
      exact h2 e1 he1
  | (name, .dir es) :: rest => by
    intro h
    rw [wfEntries_cons] at h
    obtain ⟨h1, h2, h3, h4⟩ := h
    have ih := cleanEntries_wf rest h4
    have ih1 := cleanEntries_wf es (by simpa [Node.wf] using h3)
    rw [cleanEntries_cons_dir, wfEntries_cons]
    refine ⟨h1, ?_, by simpa [Node.wf] using ih1, ih⟩
    intro e he
    obtain ⟨e1, he1, hn⟩ := mem_cleanEntries_name rest e he
    rw [← hn]
    exact h2 e1 he1
end

/-! ## Claims about `deleteFolderRecursive` -/

theorem readFileSync_eq_ok (fs : Node) (path content : String) :
    readFileSync fs path = .ok content ↔ fs.lookup? (components path) = some (.file content) := by
  unfold readFileSync
  cases h : fs.lookup? (components path) with
  | none => simp
  | some n => cases n <;> simp

theorem lstatSyncIsDirectory_eq_ok_true (fs : Node) (path : String) :
    lstatSyncIsDirectory fs path = .ok true ↔
      ∃ es, fs.lookup? (components path) = some (.dir es) := by
  unfold lstatSyncIsDirectory
  cases h : fs.lookup? (components path) with
  | none => simp
  | some n => cases n <;> simp

theorem isInfixB_iff (needle hay : List Char) : isInfixB needle hay = true ↔ needle <:+: hay := by
  induction hay with
  | nil => simp [isInfixB]
  | cons c cs ih =>
    rw [List.infix_cons_iff, ← ih]
    simp [isInfixB]

/-- The test of the traversal is the substring test. -/
theorem hasMarker_iff (content : String) : hasMarker content = true ↔ containsStr content header :=
  isInfixB_iff _ _

theorem hasMarker_eq_false_iff (content : String) :
    hasMarker content = false ↔ ¬ containsStr content header := by
  rw [← hasMarker_iff]
  simp

/-- What a path below the root resolves to after `deleteFolderRecursive`. -/
theorem lookup?_after_clean (fs : Node) (path : String) (es : List (String × Node))
    (hroot : fs.lookup? (components path) = some (.dir es)) (hwf : wfEntries es = true)
    (rel : String) :
    (Node.replaceAt (components path) fs (.dir (cleanEntries es))).lookup?
        (components (path ++ "/" ++ rel)) =
      match fs.lookup? (components (path ++ "/" ++ rel)) with
      | some (.file content) => if hasMarker content then none else some (.file content)
      | some (.dir es1) => some (.dir (cleanEntries es1))
      | none => none := by
  rw [components_append_slash, Node.lookup?_append, Node.lookup?_append,
    Node.lookup?_replaceAt _ _ _ _ hroot, hroot]
  exact lookup?_cleanEntries _ es hwf

/-- C1. On a tree rooted at an existing directory, `deleteFolderRecursive` returns normally, and
in the resulting file system every file under the root whose contents lack the marker is still
there with the same contents (any relative path, any name), and every directory under the root
(the root included) is still a directory. -/
theorem deleteFolderRecursive_keeps_unmarked (fs : Node) (path : String)
    (es : List (String × Node))
    (hroot : fs.lookup? (components path) = some (.dir es)) (hwf : wfEntries es = true) :
    ∃ fs1, deleteFolderRecursive fs path = .ok fs1 ∧
      (∀ rel content, readFileSync fs (path ++ "/" ++ rel) = .ok content →
        ¬ containsStr content header → readFileSync fs1 (path ++ "/" ++ rel) = .ok content) ∧
      (∀ rel, lstatSyncIsDirectory fs (path ++ "/" ++ rel) = .ok true →
        lstatSyncIsDirectory fs1 (path ++ "/" ++ rel) = .ok true) := by
  refine ⟨_, deleteFolderRecursive_eq fs path es hroot hwf, ?_, ?_⟩
  · intro rel content hread hm
    rw [← hasMarker_eq_false_iff] at hm
    rw [readFileSync_eq_ok] at hread ⊢
    rw [lookup?_after_clean fs path es hroot hwf rel, hread]
    simp [hm]
  · intro rel hdir
    rw [lstatSyncIsDirectory_eq_ok_true] at hdir ⊢
    obtain ⟨es1, h1⟩ := hdir
    exact ⟨cleanEntries es1, by rw [lookup?_after_clean fs path es hroot hwf rel, h1]⟩

/-- C2. On a tree rooted at an existing directory, `deleteFolderRecursive` returns normally, and
the files under the root afterwards are exactly the original files whose contents lack the
marker: no file containing the marker remains at any depth. -/
theorem deleteFolderRecursive_removes_marked (fs : Node) (path : String)
    (es : List (String × Node))
    (hroot : fs.lookup? (components path) = some (.dir es)) (hwf : wfEntries es = true) :
    ∃ fs1, deleteFolderRecursive fs path = .ok fs1 ∧
      ∀ rel content, readFileSync fs1 (path ++ "/" ++ rel) = .ok content ↔
        (readFileSync fs (path ++ "/" ++ rel) = .ok content ∧ ¬ containsStr content header) := by
  refine ⟨_, deleteFolderRecursive_eq fs path es hroot hwf, ?_⟩
  intro rel content
  rw [← hasMarker_eq_false_iff, readFileSync_eq_ok, readFileSync_eq_ok, lookup?_after_clean fs path es hroot hwf rel]
  cases h : fs.lookup? (components (path ++ "/" ++ rel)) with
  | none => simp
  | some n =>
    cases n with
    | dir es1 => simp
    | file c =>
      by_cases hm : hasMarker c = true
      · simp only [hm, if_true, Option.some.injEq, Node.file.injEq]
        constructor
        · intro h1; cases h1
        · rintro ⟨h1, h2⟩
          subst h1
          simp [hm] at h2
      · simp only [hm, if_false, Bool.false_eq_true, Option.some.injEq, Node.file.injEq]
        constructor
        · intro h1
          subst h1
          exact ⟨rfl, by simpa using hm⟩
        · exact fun h1 => h1.1

/-- C8. On a tree rooted at an existing directory, a second run of `deleteFolderRecursive`
right after the first returns normally and leaves the file system exactly as the first run
left it. -/
theorem deleteFolderRecursive_idempotent (fs : Node) (path : String)
    (es : List (String × Node))
    (hroot : fs.lookup? (components path) = some (.dir es)) (hwf : wfEntries es = true) :
    ∃ fs1, deleteFolderRecursive fs path = .ok fs1 ∧ deleteFolderRecursive fs1 path = .ok fs1 := by
  refine ⟨_, deleteFolderRecursive_eq fs path es hroot hwf, ?_⟩
  have hroot1 := Node.lookup?_replaceAt (components path) fs (.dir es) (.dir (cleanEntries es)) hroot
  rw [deleteFolderRecursive_eq _ path (cleanEntries es) hroot1 (cleanEntries_wf es hwf),
    cleanEntries_idem, Node.replaceAt_self _ _ _ hroot1]

/-- C10. When the path does not exist, `deleteFolderRecursive` returns normally and the file
system is unchanged. -/
theorem deleteFolderRecursive_nonexistent (fs : Node) (path : String)
    (h : existsSync fs path = false) : deleteFolderRecursive fs path = .ok fs := by
  unfold deleteFolderRecursive
  rw [deleteFolderRecursiveAux_succ]
  simp [h]

/-- C1, witness: the directory `out` of the sample tree. -/
theorem deleteFolderRecursive_keeps_unmarked_witness :
    sampleTree.lookup? (components "out") = some (.dir sampleOut) ∧ wfEntries sampleOut = true ∧
    ∃ fs1, deleteFolderRecursive sampleTree "out" = .ok fs1 ∧
      (∀ rel content, readFileSync sampleTree ("out" ++ "/" ++ rel) = .ok content →
        ¬ containsStr content header → readFileSync fs1 ("out" ++ "/" ++ rel) = .ok content) ∧
      (∀ rel, lstatSyncIsDirectory sampleTree ("out" ++ "/" ++ rel) = .ok true →
        lstatSyncIsDirectory fs1 ("out" ++ "/" ++ rel) = .ok true) :=
  ⟨rfl, by decide, deleteFolderRecursive_keeps_unmarked sampleTree "out" sampleOut rfl (by decide)⟩

/-- C2, witness: the directory `out` of the sample tree. -/
theorem deleteFolderRecursive_removes_marked_witness :
    sampleTree.lookup? (components "out") = some (.dir sampleOut) ∧ wfEntries sampleOut = true ∧
    ∃ fs1, deleteFolderRecursive sampleTree "out" = .ok fs1 ∧
      ∀ rel content, readFileSync fs1 ("out" ++ "/" ++ rel) = .ok content ↔
        (readFileSync sampleTree ("out" ++ "/" ++ rel) = .ok content ∧
          ¬ containsStr content header) :=
  ⟨rfl, by decide, deleteFolderRecursive_removes_marked sampleTree "out" sampleOut rfl (by decide)⟩

/-- C8, witness: the directory `out` of the sample tree. -/
theorem deleteFolderRecursive_idempotent_witness :
    sampleTree.lookup? (components "out") = some (.dir sampleOut) ∧ wfEntries sampleOut = true ∧
    ∃ fs1, deleteFolderRecursive sampleTree "out" = .ok fs1 ∧
      deleteFolderRecursive fs1 "out" = .ok fs1 :=
  ⟨rfl, by decide, deleteFolderRecursive_idempotent sampleTree "out" sampleOut rfl (by decide)⟩

/-- C10, witness: a path that is not in the sample tree. -/
theorem deleteFolderRecursive_nonexistent_witness :
    existsSync sampleTree "out/missing" = false ∧
    deleteFolderRecursive sampleTree "out/missing" = .ok sampleTree :=
  ⟨by decide, deleteFolderRecursive_nonexistent sampleTree "out/missing" (by decide)⟩

/-! ## handleInput -/

theorem codegen_ne_exit (a : Args) (exe project : String) (w w1 : World) (code : Nat) :
    codegen a exe project w ≠ .exit w1 code := by
  unfold codegen
  cases getProperty project with
  | undefined => simp
  | inherited => by_cases hp : a.preserve = true <;> simp [hp]
  | own p =>
    by_cases hp : a.preserve = true
    · simp [hp]
    · simp only [hp, Bool.false_eq_true, if_false]
      cases deleteFolderRecursive (w.emit (.deleteFolderRecursive (sourcesToDelete p))).fs
        (sourcesToDelete p) <;> simp

theorem forEach_append_stop {α : Type} (f : α → World → Result) (before after : List α) (x : α)
    (w : World) :
    forEach f (before ++ x :: after) w =
      match forEach f before w with
      | .done w1 =>
        match f x w1 with
        | .done w2 => forEach f after w2
        | r => r
      | r => r := by
  induction before generalizing w with
  | nil => simp [forEach]
  | cons y before ih =>
    simp only [List.cons_append, forEach]
    cases f y w with
    | done w1 => simpa using ih w1
    | exit w1 code => simp
    | uncaught w1 err => simp

theorem forEach_congr {α : Type} (f g : α → World → Result) (xs : List α) (w : World)
    (h : ∀ x ∈ xs, ∀ w1, f x w1 = g x w1) : forEach f xs w = forEach g xs w := by
  induction xs generalizing w with
  | nil => simp [forEach]
  | cons x xs ih =>
    simp only [forEach, h x (by simp)]
    cases g x w with
    | done w1 => simpa using ih w1 (fun y hy => h y (by simp [hy]))
    | exit w1 code => simp
    | uncaught w1 err => simp

theorem handleInputEntry_of_defined (a : Args) (exe raw : String) (w : World)
    (h : getProperty (removeSpaces raw) ≠ .undefined) :
    handleInputEntry a exe raw w = codegen a exe (removeSpaces raw) w := by
  unfold handleInputEntry
  cases hg : getProperty (removeSpaces raw) with
  | undefined => exact absurd hg h
  | inherited => simp
  | own p => simp

theorem handleInputEntry_of_undefined (a : Args) (exe raw : String) (w : World)
    (h : getProperty (removeSpaces raw) = .undefined) :
    handleInputEntry a exe raw w =
      .exit (w.emit (.error ("Invalid project name \"" ++ removeSpaces raw ++ "\"!"))) 1 := by
  unfold handleInputEntry
  simp [h]

/-- C3, as the code has it. When a name of the list, with its spaces removed, is not a property
of `mappings`, and the names before it are, `handleInput` first runs `codegen` (cleanup and
dispatch) for the names before it, in order; if these calls return, it prints the diagnostic for
the name and exits with status 1. Nothing is done for that name or for the names after it, and
when the name comes first the run ends with the diagnostic alone. -/
theorem handleInput_stops_at_first_invalid (a : Args) (exe names : String) (w : World)
    (before after : List String) (bad : String)
    (hsplit : splitComma names = before ++ bad :: after)
    (hbefore : ∀ n ∈ before, getProperty (removeSpaces n) ≠ .undefined)
    (hbad : getProperty (removeSpaces bad) = .undefined) :
    (handleInput a exe (some names) w =
      match forEach (fun n w1 => codegen a exe (removeSpaces n) w1) before w with
      | .done w1 =>
        .exit (w1.emit (.error ("Invalid project name \"" ++ removeSpaces bad ++ "\"!"))) 1
      | r => r) ∧
    (before = [] →
      handleInput a exe (some names) w =
        .exit (w.emit (.error ("Invalid project name \"" ++ removeSpaces bad ++ "\"!"))) 1) := by
  have hmain : handleInput a exe (some names) w =
      match forEach (fun n w1 => codegen a exe (removeSpaces n) w1) before w with
      | .done w1 =>
        .exit (w1.emit (.error ("Invalid project name \"" ++ removeSpaces bad ++ "\"!"))) 1
      | r => r := by
    simp only [handleInput, hsplit]
    rw [forEach_append_stop,
      forEach_congr (handleInputEntry a exe) (fun n w1 => codegen a exe (removeSpaces n) w1)
        before w (fun n hn w1 => handleInputEntry_of_defined a exe n w1 (hbefore n hn))]
    cases forEach (fun n w1 => codegen a exe (removeSpaces n) w1) before w with
    | done w1 => simp [handleInputEntry_of_undefined a exe bad w1 hbad]
    | exit w1 code => simp
    | uncaught w1 err => simp
  refine ⟨hmain, ?_⟩
  intro hnil
  rw [hmain, hnil]
  simp [forEach]

/-- C3, witness: `--projects compute,foo,network`, where `foo` is not in the registry. -/
theorem handleInput_stops_at_first_invalid_witness :
    handleInput sampleArgs (autoRestExe sampleArgs) (some "compute,foo,network") emptyWorld =
      match forEach (fun n w1 => codegen sampleArgs (autoRestExe sampleArgs) (removeSpaces n) w1)
          ["compute"] emptyWorld with
      | .done w1 => .exit (w1.emit (.error ("Invalid project name \"" ++ removeSpaces "foo" ++ "\"!"))) 1
      | r => r :=
  (handleInput_stops_at_first_invalid sampleArgs (autoRestExe sampleArgs) "compute,foo,network"
    emptyWorld ["compute"] ["network"] "foo" (by decide)
    (by intro n hn; simp only [List.mem_singleton] at hn; subst hn; decide) (by decide)).1

/-- C3, counterexample. With `--projects compute,foo`, where `foo` is not in the registry, the
registered name before it is cleaned up and dispatched before the exit with status 1. -/
theorem handleInput_not_abort_all :
    lookupProject "foo" mappings = none ∧
    handleInput sampleArgs (autoRestExe sampleArgs) (some "compute,foo") emptyWorld =
      .exit ⟨.dir [],
        [.deleteFolderRecursive
            "azure-mgmt-compute/src/main/java/com/microsoft/azure/management/compute",
          .log ("Generating \"compute\" from spec file " ++ specRoot sampleArgs ++ "/" ++
            computeProject.source),
          .log ("Command: " ++ cmd sampleArgs (autoRestExe sampleArgs) computeProject),
          .spawn (cmd sampleArgs (autoRestExe sampleArgs) computeProject),
          .error "Invalid project name \"foo\"!"]⟩ 1 :=
  ⟨by decide, rfl⟩

/-- C4, as the code has it. For a name of the list, let `s` be the name with its spaces removed.
When `s` is a key of `mappings`, the name is accepted and `codegen` is called for `s`. When `s` is
not a property name of `Object.prototype`, the name is rejected, with the diagnostic naming `s`
and exit status 1, if and only if `s` is not a key of `mappings`. -/
theorem handleInputEntry_rejects_iff (a : Args) (exe raw : String) (w : World) :
    (∀ p, lookupProject (removeSpaces raw) mappings = some p →
      handleInputEntry a exe raw w = codegen a exe (removeSpaces raw) w) ∧
    (removeSpaces raw ∉ objectPrototypeKeys →
      (handleInputEntry a exe raw w =
          .exit (w.emit (.error ("Invalid project name \"" ++ removeSpaces raw ++ "\"!"))) 1 ↔
        lookupProject (removeSpaces raw) mappings = none)) := by
  constructor
  · intro p hp
    apply handleInputEntry_of_defined
    simp [getProperty, hp]
  · intro hproto
    constructor
    · intro hexit
      cases hl : lookupProject (removeSpaces raw) mappings with
      | none => rfl
      | some p =>
        rw [handleInputEntry_of_defined a exe raw w (by simp [getProperty, hl])] at hexit
        exact absurd hexit (codegen_ne_exit _ _ _ _ _ _)
    · intro hnone
      apply handleInputEntry_of_undefined
      simp [getProperty, hnone, hproto]

/-- C4, witness: the name `f oo` is rejected as `foo`. -/
theorem handleInputEntry_rejects_iff_witness :
    handleInputEntry sampleArgs (autoRestExe sampleArgs) "f oo" emptyWorld =
      .exit (emptyWorld.emit (.error ("Invalid project name \"" ++ removeSpaces "f oo" ++ "\"!"))) 1 :=
  ((handleInputEntry_rejects_iff sampleArgs (autoRestExe sampleArgs) "f oo" emptyWorld).2
    (by decide)).2 (by decide)

/-- C4, counterexample. The name `com pute` is not a key of `mappings`, and it is accepted:
`codegen` runs for `compute` and the command is dispatched. -/
theorem handleInput_accepts_name_with_spaces :
    lookupProject "com pute" mappings = none ∧
    handleInput sampleArgs (autoRestExe sampleArgs) (some "com pute") emptyWorld =
      codegen sampleArgs (autoRestExe sampleArgs) "compute" emptyWorld ∧
    (codegen sampleArgs (autoRestExe sampleArgs) "compute" emptyWorld).world.events.getLast? =
      some (.spawn (cmd sampleArgs (autoRestExe sampleArgs) computeProject)) :=
  ⟨by decide, rfl, rfl⟩

/-! ## The cleanup target -/

/-- C5, the code at the entries named in the claim. For `resources`, `subscriptions`, `features`
and `policy` the argument of `deleteFolderRecursive` keeps the text appended to the package
name, so it is not the directory of the package. For each of the other entries of the registry
it is the directory, `/src/main/java/` and the package with `/` for `.`, as in the example
`out/alpha` of the specification. -/
theorem sourcesToDelete_registry :
    (mappings.filter
        (fun e => decide (e.1 ∈ ["resources", "subscriptions", "features", "policy"]))).map
        (fun e => (e.1, sourcesToDelete e.2)) =
      [("resources",
          "azure-mgmt-resources/src/main/java/com/microsoft/azure/management/resources --tag=package-resources-2016-09"),
        ("subscriptions",
          "azure-mgmt-resources/src/main/java/com/microsoft/azure/management/resources --tag=package-subscriptions-2016-06"),
        ("features",
          "azure-mgmt-resources/src/main/java/com/microsoft/azure/management/resources --tag=package-features-2015-12"),
        ("policy",
          "azure-mgmt-resources/src/main/java/com/microsoft/azure/management/resources --tag=package-policy-2016-04")] ∧
    ((mappings.filter
        (fun e => decide (e.1 ∉ ["resources", "subscriptions", "features", "policy"]))).all
        (fun e => decide (sourcesToDelete e.2 =
          e.2.dir ++ "/src/main/java/" ++ replaceDots e.2.package))) = true ∧
    sourcesToDelete (Project.mk "out/alpha" "a.json" "com.example.alpha" none none none) =
      "out/alpha/src/main/java/com/example/alpha" ∧
    (codegen sampleArgs (autoRestExe sampleArgs) "resources" emptyWorld).world.events.head? =
      some (.deleteFolderRecursive
        "azure-mgmt-resources/src/main/java/com/microsoft/azure/management/resources --tag=package-resources-2016-09") :=
  ⟨by decide, by decide, by decide, rfl⟩

/-! ## The command -/

theorem containsStr_iff (hay needle : String) :
    containsStr hay needle ↔ ∃ s t : List Char, s ++ needle.data ++ t = hay.data := Iff.rfl

theorem codegen_done_spawns (a : Args) (exe name : String) (p : Project) (w w1 : World)
    (hreg : getProperty name = .own p) (hdone : codegen a exe name w = .done w1) :
    w1.events.getLast? = some (.spawn (cmd a exe p)) := by
  unfold codegen at hdone
  simp only [hreg] at hdone
  by_cases hp : a.preserve = true
  · simp only [hp, if_true, Result.done.injEq] at hdone
    rw [← hdone]
    simp [World.emit]
  · simp only [hp, Bool.false_eq_true, if_false] at hdone
    cases hd : deleteFolderRecursive (w.emit (.deleteFolderRecursive (sourcesToDelete p))).fs
        (sourcesToDelete p) with
    | error err => simp [hd] at hdone
    | ok fs1 =>
      simp only [hd, Result.done.injEq] at hdone
      rw [← hdone]
      simp [World.emit]

/-- C6. For every registered project and every choice of options and executable, the command
built by `codegen` contains `specRoot`, a `/` and the `source` of the entry, as they are, as one
contiguous substring; and this command is the one `codegen` dispatches when it returns. -/
theorem cmd_contains_spec_location (a : Args) (exe name : String) (p : Project)
    (hreg : getProperty name = .own p) :
    containsStr (cmd a exe p) (specRoot a ++ "/" ++ p.source) ∧
    ∀ w w1, codegen a exe name w = .done w1 →
      w1.events.getLast? = some (.spawn (cmd a exe p)) := by
  refine ⟨?_, fun w w1 h => codegen_done_spawns a exe name p w w1 hreg h⟩
  rw [containsStr_iff]
  cases hargs : p.args with
  | none =>
    exact ⟨exe.data ++ [' '], _, by
      simp only [cmd, hargs, String.data_append, List.append_assoc]; rfl⟩
  | some extra =>
    exact ⟨exe.data ++ [' '], _, by
      simp only [cmd, hargs, String.data_append, List.append_assoc]; rfl⟩

/-- C6, witness: the entry `compute` with the default options. -/
theorem cmd_contains_spec_location_witness :
    containsStr (cmd sampleArgs (autoRestExe sampleArgs) computeProject)
      (specRoot sampleArgs ++ "/" ++ computeProject.source) :=
  (cmd_contains_spec_location sampleArgs (autoRestExe sampleArgs) "compute" computeProject
    (by decide)).1

/-! ### The fluent flag -/

/-- A block that does not contain a separator character and occurs in `a ++ c :: b`, with `c`
the separator, occurs in `a` or in `b`. -/
theorem infix_of_infix_append_sep (n a b : List Char) (c : Char) (hc : c ∉ n)
    (h : n <:+: a ++ c :: b) : n <:+: a ∨ n <:+: b := by
  obtain ⟨s, t, hst⟩ := h
  rw [List.append_assoc, List.append_eq_append_iff] at hst
  rcases hst with ⟨a1, ha, hn⟩ | ⟨c1, hs, hcb⟩
  · -- the block starts inside `a`
    rw [List.append_eq_append_iff] at hn
    rcases hn with ⟨x, hx, -⟩ | ⟨y, hy, hcy⟩
    · exact Or.inl ⟨s, x, by rw [ha, hx, List.append_assoc]⟩
    · cases y with
      | nil =>
        simp only [List.append_nil] at hy
        exact Or.inl ⟨s, [], by rw [ha, hy, List.append_nil]⟩
      | cons d y1 =>
        simp only [List.cons_append, List.cons.injEq] at hcy
        exact absurd (by rw [hy, hcy.1]; simp) hc
  · -- the block starts at the separator or after it
    cases c1 with
    | nil =>
      simp only [List.nil_append] at hcb
      cases n with
      | nil => exact Or.inl ⟨[], a, by simp⟩
      | cons d n1 =>
        simp only [List.cons_append, List.cons.injEq] at hcb
        exact absurd (by rw [hcb.1]; simp) hc
    | cons d c2 =>
      simp only [List.cons_append, List.cons.injEq] at hcb
      exact Or.inr ⟨c2, t, by rw [hcb.2, List.append_assoc]⟩

theorem infix_append_right (n init rest : List Char) (h : n <:+: rest) :
    n <:+: init ++ rest :=
  h.trans (List.suffix_append init rest).isInfix

/-- A literal that ends with a separator, in front of a list. -/
theorem not_infix_lit_append (n init b : List Char) (d : Char) (hd : d ∉ n)
    (hinit : ¬ n <:+: init) (hb : ¬ n <:+: b) : ¬ n <:+: init ++ d :: b := by
  intro h
  rcases infix_of_infix_append_sep n init b d hd h with h1 | h1
  · exact hinit h1
  · exact hb h1

theorem not_infix_tail_args (n args : List Char) (extra : Option String) (hsp : ' ' ∉ n)
    (hargs : ¬ n <:+: args) :
    (∀ e, extra = some e → ¬ n <:+: e.data) →
    ¬ n <:+: args ++ (match extra with
      | some e => ' ' :: e.data
      | none => []) := by
  intro hextra
  cases extra with
  | none => simpa using hargs
  | some e => exact not_infix_lit_append n args e.data ' ' hsp hargs (hextra e rfl)

theorem cmd_data_not_fluent (a : Args) (exe : String) (p : Project)
    (hf : p.fluent = some false) :
    (cmd a exe p).data =
      (exe.data ++ ' ' ::
      ((specRoot a).data ++ '/' ::
      (p.source.data ++ ' ' ::
      ("--java".data ++ ' ' ::
      ([] ++ ' ' ::
      ("--azure-arm".data ++ ' ' ::
      ([] ++ ' ' ::
      ("--namespace".data ++ '=' ::
      (p.package.data ++ ' ' ::
      ([] ++ ' ' ::
      ("--output-folder".data ++ '=' ::
      ((pathResolve a.cwd [p.dir]).data ++ ' ' ::
      ([] ++ ' ' ::
      ("--license-header=MICROSOFT_MIT_NO_CODEGEN".data ++ ' ' ::
      ((match a.autorestJava with
        | some java =>
          if java = "" then []
          else "--use".data ++ '=' ::
            ((pathResolve a.cwd [autoRestVersion a, java]).data ++ [' '])
        | none => []) ++
      ((if a.regenerateManager = true then
          ' ' :: ("--regenerate-manager=true".data ++ [' '])
        else []) ++
      ((autoRestArgs a).data ++ (match p.args with
        | some e => ' ' :: e.data
        | none => [])))))))))))))))))) := by
  have hjava : ∀ o : Option String,
      (match o with
        | some java =>
          if java = "" then ""
          else "--use=" ++ pathResolve a.cwd [autoRestVersion a, java] ++ " "
        | none => "").data =
      (match o with
        | some java =>
          if java = "" then []
          else "--use".data ++ '=' ::
            ((pathResolve a.cwd [autoRestVersion a, java]).data ++ [' '])
        | none => []) := by
    intro o
    cases o with
    | none => rfl
    | some java =>
      by_cases hj : java = ""
      · simp [hj]
      · simp only [hj, if_false, String.data_append, List.append_assoc]
        rfl
  have hregen : (if a.regenerateManager = true then " --regenerate-manager=true " else "").data =
      (if a.regenerateManager = true then
        ' ' :: ("--regenerate-manager=true".data ++ [' ']) else []) := by
    by_cases hr : a.regenerateManager = true
    · simp only [hr, if_true]; rfl
    · simp only [hr, if_false]; rfl
  cases hargs : p.args with
  | none =>
    simp only [cmd, hargs, hf, if_true, String.data_append, List.append_assoc, hjava, hregen]
    simp
  | some extra =>
    simp only [cmd, hargs, hf, if_true, String.data_append, List.append_assoc, hjava, hregen]
    simp

theorem not_infix_tail (a : Args) (p : Project)
    (hins : ∀ s ∈ insertedStrings a "" p, ¬ "--fluent".data <:+: s.data) :
    ¬ "--fluent".data <:+:
      ((match a.autorestJava with
        | some java =>
          if java = "" then []
          else "--use".data ++ '=' ::
            ((pathResolve a.cwd [autoRestVersion a, java]).data ++ [' '])
        | none => []) ++
      ((if a.regenerateManager = true then
          ' ' :: ("--regenerate-manager=true".data ++ [' '])
        else []) ++
      ((autoRestArgs a).data ++ (match p.args with
        | some e => ' ' :: e.data
        | none => [])))) := by
  have hA : ¬ "--fluent".data <:+: (autoRestArgs a).data ++ (match p.args with
      | some e => ' ' :: e.data
      | none => []) := by
    refine not_infix_tail_args "--fluent".data _ _ (by decide) ?_ ?_
    · exact hins _ (by simp [insertedStrings])
    · intro e he
      exact hins _ (by simp [insertedStrings, he])
  have hR : ¬ "--fluent".data <:+:
      ((if a.regenerateManager = true then
          ' ' :: ("--regenerate-manager=true".data ++ [' '])
        else []) ++
      ((autoRestArgs a).data ++ (match p.args with
        | some e => ' ' :: e.data
        | none => []))) := by
    by_cases hr : a.regenerateManager = true
    · have e : ∀ x : List Char, (' ' :: ("--regenerate-manager=true".data ++ [' '])) ++ x =
          [] ++ ' ' :: ("--regenerate-manager=true".data ++ ' ' :: x) := by
        intro x; simp
      simp only [hr, if_true]
      rw [e]
      refine not_infix_lit_append "--fluent".data [] _ ' ' (by decide) (by decide) ?_
      exact not_infix_lit_append "--fluent".data "--regenerate-manager=true".data _ ' '
        (by decide) (by decide) hA
    · simpa only [hr, if_false, List.nil_append] using hA
  cases hj : a.autorestJava with
  | none => simpa using hR
  | some java =>
    by_cases hjava : java = ""
    · simpa [hjava] using hR
    · have e : ∀ x : List Char,
          ("--use".data ++ '=' :: ((pathResolve a.cwd [autoRestVersion a, java]).data ++ [' '])) ++ x =
          "--use".data ++ '=' :: ((pathResolve a.cwd [autoRestVersion a, java]).data ++ ' ' :: x) := by
        intro x; simp
      simp only [hjava, if_false]
      rw [e]
      refine not_infix_lit_append "--fluent".data "--use".data _ '=' (by decide) (by decide) ?_
      refine not_infix_lit_append "--fluent".data _ _ ' ' (by decide) ?_ hR
      exact hins _ (by simp [insertedStrings, hj, hjava])

/-- C7, as the code has it. When the `fluent` field of the entry is absent or `true`, the command
contains `--fluent`. When it is `false`, `codegen` puts nothing in the place of the flag: the
command does not contain `--fluent`, provided that none of the strings inserted into the command
(executable, `specRoot`, fields of the entry, resolved paths, extra arguments) contains it. -/
theorem cmd_fluent_flag (a : Args) (exe : String) (p : Project) :
    (p.fluent ≠ some false → containsStr (cmd a exe p) "--fluent") ∧
    (p.fluent = some false →
      (∀ s ∈ insertedStrings a exe p, ¬ containsStr s "--fluent") →
      ¬ containsStr (cmd a exe p) "--fluent") := by
  constructor
  · intro hf
    unfold containsStr
    cases hargs : p.args with
    | none =>
      simp only [cmd, hargs, hf, if_false, String.data_append, List.append_assoc]
      iterate 7 apply infix_append_right
      exact (List.prefix_append _ _).isInfix
    | some extra =>
      simp only [cmd, hargs, hf, if_false, String.data_append, List.append_assoc]
      iterate 7 apply infix_append_right
      exact (List.prefix_append _ _).isInfix
  · intro hf hins
    have hins1 : ∀ s ∈ insertedStrings a exe p, ¬ "--fluent".data <:+: s.data := hins
    have hins2 : ∀ s ∈ insertedStrings a "" p, ¬ "--fluent".data <:+: s.data := by
      intro s hs
      simp only [insertedStrings, List.cons_append, List.nil_append, List.mem_cons] at hs
      rcases hs with h | h
      · subst h; decide
      · exact hins1 s (by simp only [insertedStrings, List.cons_append, List.nil_append,
          List.mem_cons]; exact Or.inr h)
    unfold containsStr
    rw [cmd_data_not_fluent a exe p hf]
    have hmem : ∀ s, s ∈ [exe, specRoot a, p.source, p.package, pathResolve a.cwd [p.dir]] →
        ¬ "--fluent".data <:+: s.data := by
      intro s hs
      apply hins1
      simp only [insertedStrings, List.cons_append, List.nil_append, List.mem_cons] at hs ⊢
      simp only [List.mem_nil_iff, or_false] at hs
      tauto
    refine not_infix_lit_append "--fluent".data _ _ ' ' (by decide) (hmem exe (by simp)) ?_
    refine not_infix_lit_append "--fluent".data _ _ '/' (by decide) (hmem (specRoot a) (by simp)) ?_
    refine not_infix_lit_append "--fluent".data _ _ ' ' (by decide) (hmem p.source (by simp)) ?_
    refine not_infix_lit_append "--fluent".data _ _ ' ' (by decide) (by decide) ?_
    refine not_infix_lit_append "--fluent".data _ _ ' ' (by decide) (by decide) ?_
    refine not_infix_lit_append "--fluent".data _ _ ' ' (by decide) (by decide) ?_
    refine not_infix_lit_append "--fluent".data _ _ ' ' (by decide) (by decide) ?_
    refine not_infix_lit_append "--fluent".data _ _ '=' (by decide) (by decide) ?_
    refine not_infix_lit_append "--fluent".data _ _ ' ' (by decide) (hmem p.package (by simp)) ?_
    refine not_infix_lit_append "--fluent".data _ _ ' ' (by decide) (by decide) ?_
    refine not_infix_lit_append "--fluent".data _ _ '=' (by decide) (by decide) ?_
    refine not_infix_lit_append "--fluent".data _ _ ' ' (by decide) (hmem (pathResolve a.cwd [p.dir]) (by simp)) ?_
    refine not_infix_lit_append "--fluent".data _ _ ' ' (by decide) (by decide) ?_
    refine not_infix_lit_append "--fluent".data _ _ ' ' (by decide) (by decide) ?_
    exact not_infix_tail a p hins2

/-- C7, witness: the entry `keyvault` with the default options. -/
theorem cmd_fluent_flag_witness :
    ¬ containsStr (cmd sampleArgs (autoRestExe sampleArgs) keyvaultProject) "--fluent" :=
  (cmd_fluent_flag sampleArgs (autoRestExe sampleArgs) keyvaultProject).2 (by decide)
    (by decide)

/-- C7, counterexample. The entry `keyvault` has `fluent` set to `false`; with
`--autorest-args=--fluent` the command built for it contains `--fluent`. -/
theorem cmd_fluent_from_args :
    getProperty "keyvault" = .own keyvaultProject ∧ keyvaultProject.fluent = some false ∧
    containsStr (cmd fluentArgs (autoRestExe fluentArgs) keyvaultProject) "--fluent" :=
  ⟨by decide, by decide, by decide⟩

/-! ## The executable -/

theorem digitsThen_some (cs r : List Char) (h : digitsThen cs = some r) :
    ∃ d, d ≠ [] ∧ (∀ c ∈ d, c.isDigit = true) ∧ cs = d ++ r := by
  cases cs with
  | nil => simp [digitsThen] at h
  | cons c rest =>
    by_cases hc : c.isDigit = true
    · simp only [digitsThen, hc, if_true, Option.some.injEq] at h
      refine ⟨c :: rest.takeWhile Char.isDigit, by simp, ?_, ?_⟩
      · intro x hx
        rcases List.mem_cons.1 hx with h1 | h1
        · rw [h1]; exact hc
        · exact (List.mem_takeWhile_imp h1)
      · rw [← h]
        simp [List.takeWhile_append_dropWhile]
    · simp [digitsThen, hc] at h

theorem dropWhile_digits_append (d r : List Char) (hd : ∀ c ∈ d, c.isDigit = true)
    (hr : ∀ c, r.head? = some c → c.isDigit = false) :
    (d ++ r).dropWhile Char.isDigit = r := by
  induction d with
  | nil =>
    cases r with
    | nil => rfl
    | cons x r1 =>
      have := hr x rfl
      simp [List.dropWhile, this]
  | cons c d ih =>
    have hc := hd c (by simp)
    simp only [List.cons_append, List.dropWhile, hc]
    exact ih (fun x hx => hd x (by simp [hx]))

theorem digitsThen_append (d r : List Char) (hne : d ≠ []) (hd : ∀ c ∈ d, c.isDigit = true)
    (hr : ∀ c, r.head? = some c → c.isDigit = false) : digitsThen (d ++ r) = some r := by
  cases d with
  | nil => exact absurd rfl hne
  | cons c d1 =>
    have hc := hd c (by simp)
    simp only [List.cons_append, digitsThen, hc, if_true, Option.some.injEq]
    exact dropWhile_digits_append d1 r (fun x hx => hd x (by simp [hx])) hr

theorem digitsThen_isSome (d r : List Char) (hne : d ≠ []) (hd : ∀ c ∈ d, c.isDigit = true) :
    (digitsThen (d ++ r)).isSome = true := by
  cases d with
  | nil => exact absurd rfl hne
  | cons c d1 =>
    have hc := hd c (by simp)
    simp [digitsThen, hc]

theorem matchVersionAt_iff (cs : List Char) :
    matchVersionAt cs = true ↔
      ∃ d1 d2 d3 suf : List Char, cs = d1 ++ '.' :: (d2 ++ '.' :: (d3 ++ suf)) ∧
        d1 ≠ [] ∧ d2 ≠ [] ∧ d3 ≠ [] ∧
        (∀ c ∈ d1, c.isDigit = true) ∧ (∀ c ∈ d2, c.isDigit = true) ∧
        (∀ c ∈ d3, c.isDigit = true) := by
  constructor
  · intro h
    unfold matchVersionAt at h
    split at h
    · rename_i r1 h1
      split at h
      · rename_i r2 h2
        cases h3 : digitsThen r2 with
        | none => simp [h3] at h
        | some r3 =>
          obtain ⟨d1, n1, a1, e1⟩ := digitsThen_some _ _ h1
          obtain ⟨d2, n2, a2, e2⟩ := digitsThen_some _ _ h2
          obtain ⟨d3, n3, a3, e3⟩ := digitsThen_some _ _ h3
          exact ⟨d1, d2, d3, r3, by rw [e1, e2, e3], n1, n2, n3, a1, a2, a3⟩
      · exact absurd h (by simp)
    · exact absurd h (by simp)
  · rintro ⟨d1, d2, d3, suf, e, n1, n2, n3, a1, a2, a3⟩
    have hdot : ∀ (x : List Char) (c : Char), ('.' :: x).head? = some c → c.isDigit = false := by
      intro x c hc
      simp only [List.head?_cons, Option.some.injEq] at hc
      rw [← hc]
      decide
    have h1 := digitsThen_append d1 ('.' :: (d2 ++ '.' :: (d3 ++ suf))) n1 a1 (hdot _)
    have h2 := digitsThen_append d2 ('.' :: (d3 ++ suf)) n2 a2 (hdot _)
    have h3 := digitsThen_isSome d3 suf n3 a3
    rw [e]
    simp only [matchVersionAt, h1, h2, h3]

theorem matchVersionChars_iff (cs : List Char) :
    matchVersionChars cs = true ↔ ∃ pre t, cs = pre ++ t ∧ matchVersionAt t = true := by
  induction cs with
  | nil =>
    simp only [matchVersionChars, Bool.false_eq_true, false_iff]
    rintro ⟨pre, t, e, h⟩
    have ht : t = [] := by
      cases pre with
      | nil => simpa using e.symm
      | cons x pre1 => simp at e
    rw [ht] at h
    simp [matchVersionAt, digitsThen] at h
  | cons c cs ih =>
    simp only [matchVersionChars, Bool.or_eq_true, ih]
    constructor
    · rintro (h | ⟨pre, t, e, h⟩)
      · exact ⟨[], c :: cs, rfl, h⟩
      · exact ⟨c :: pre, t, by rw [e]; rfl, h⟩
    · rintro ⟨pre, t, e, h⟩
      cases pre with
      | nil =>
        left
        simp only [List.nil_append] at e
        rw [e]
        exact h
      | cons x pre1 =>
        right
        simp only [List.cons_append, List.cons.injEq] at e
        exact ⟨pre1, t, e.2, h⟩

/-- The matcher agrees with the declarative reading of the regular expression. -/
theorem matchVersion_iff (s : String) : matchVersion s = true ↔ HasVersionNumber s := by
  unfold matchVersion HasVersionNumber
  rw [matchVersionChars_iff]
  constructor
  · rintro ⟨pre, t, e, h⟩
    obtain ⟨d1, d2, d3, suf, e1, rest⟩ := (matchVersionAt_iff t).1 h
    exact ⟨pre, d1, d2, d3, suf, by rw [e, e1], rest⟩
  · rintro ⟨pre, d1, d2, d3, suf, e, rest⟩
    exact ⟨pre, _, e, (matchVersionAt_iff _).2 ⟨d1, d2, d3, suf, rfl, rest⟩⟩

theorem cmd_starts_with_exe (a : Args) (exe : String) (p : Project) :
    (exe ++ " ").data <+: (cmd a exe p).data := by
  cases hargs : p.args with
  | none =>
    exact ⟨_, by simp only [cmd, hargs, String.data_append, List.append_assoc]; rfl⟩
  | some extra =>
    exact ⟨_, by simp only [cmd, hargs, String.data_append, List.append_assoc]; rfl⟩

theorem codegenTask_eq (a : Args) (w : World) :
    codegenTask a w = handleInput a (autoRestExe a) a.projects w := by
  unfold codegenTask autoRestExe
  split <;> rfl

/-- The test of the `codegen` task, read off the code. The task runs `handleInput` with
`autoRestExe` set as follows, and every command starts with `autoRestExe` and a space. When the
value of `--autorest` (default `latest`) is `latest` or the unanchored regular expression finds
three non-empty runs of digits separated by dots at some position of it, `autoRestExe` is
`autorest ---version=` followed by the value. Otherwise it is `node ` followed by
`path.join(value, "src/autorest-core/dist/app.js")`. -/
theorem autoRestExe_selection (a : Args) :
    (∀ w, codegenTask a w = handleInput a (autoRestExe a) a.projects w) ∧
    (∀ p, (autoRestExe a ++ " ").data <+: (cmd a (autoRestExe a) p).data) ∧
    (autoRestVersion a = "latest" ∨ HasVersionNumber (autoRestVersion a) →
      autoRestExe a = "autorest ---version=" ++ autoRestVersion a) ∧
    (¬ (autoRestVersion a = "latest" ∨ HasVersionNumber (autoRestVersion a)) →
      autoRestExe a =
        "node " ++ pathJoin [autoRestVersion a, "src/autorest-core/dist/app.js"]) := by
  refine ⟨codegenTask_eq a, fun p => cmd_starts_with_exe a _ p, ?_, ?_⟩
  · intro h
    have : (matchVersion (autoRestVersion a) || autoRestVersion a == "latest") = true := by
      rcases h with h | h
      · simp [h]
      · simp [(matchVersion_iff _).2 h]
    simp only [autoRestExe, this, if_true]
  · intro h
    have : (matchVersion (autoRestVersion a) || autoRestVersion a == "latest") = false := by
      rw [Bool.or_eq_false_iff]
      constructor
      · cases hm : matchVersion (autoRestVersion a) with
        | false => rfl
        | true => exact absurd (Or.inr ((matchVersion_iff _).1 hm)) h
      · simpa using fun e => h (Or.inl e)
    simp only [autoRestExe, this, Bool.false_eq_true, if_false]

/-- The version `1.0.1-20170222-2300-nightly` of the help text gets the version form. -/
theorem autoRestExe_selection_witness :
    autoRestExe nightlyArgs = "autorest ---version=" ++ autoRestVersion nightlyArgs :=
  (autoRestExe_selection nightlyArgs).2.2.1
    (Or.inr ⟨[], ['1'], ['0'], ['1'], "-20170222-2300-nightly".data, by decide, by decide,
      by decide, by decide, by decide, by decide, by decide⟩)

/-- C9, the code at the failing input. The value `/opt/autorest-1.0.1` is the location of an
AutoRest repo: it is not `latest` and does not begin with a version number. The regular
expression has no anchor and finds `1.0.1` inside the path, so the executable chosen is
`autorest ---version=/opt/autorest-1.0.1` and the command does not start with `node`. On the
values of the help text the code does what the claim says: `latest` and
`1.0.1-20170222-2300-nightly` get the version form, the location `/opt/autorest` gets
`node /opt/autorest/src/autorest-core/dist/app.js`. -/
theorem autoRestExe_path_with_version :
    autoRestVersion repoPathArgs = "/opt/autorest-1.0.1" ∧
    autoRestVersion repoPathArgs ≠ "latest" ∧
    matchVersionAt (autoRestVersion repoPathArgs).data = false ∧
    matchVersion (autoRestVersion repoPathArgs) = true ∧
    autoRestExe repoPathArgs = "autorest ---version=/opt/autorest-1.0.1" ∧
    ¬ "node ".data <+: (cmd repoPathArgs (autoRestExe repoPathArgs) computeProject).data ∧
    autoRestExe sampleArgs = "autorest ---version=latest" ∧
    autoRestExe nightlyArgs = "autorest ---version=1.0.1-20170222-2300-nightly" ∧
    autoRestExe ⟨none, none, some "/opt/autorest", none, none, false, false, "/home/user/sdk"⟩ =
      "node /opt/autorest/src/autorest-core/dist/app.js" :=
  ⟨by decide, by decide, by decide, by decide, by decide, by decide, by decide, by decide,
    by decide⟩

/-- A repo location without digits in it gets the run-from-path form. -/
theorem autoRestExe_repo_path :
    autoRestExe ⟨none, none, some "/opt/autorest", none, none, false, false, "/home/user/sdk"⟩ =
      "node /opt/autorest/src/autorest-core/dist/app.js" := by
  decide

end Gulpfile
